import Mathlib

/-!
# Verification of the `budget_normalizer` amount normalizer

Shallow embedding of `parseMoney` from `src/unnamed/part_001` (the same
function, token for token, appears at the top of `src/n8n_parse_money.js`).
Strings are modelled as `List Char`; JavaScript numbers are modelled as
exact integers (`Nat`/`Int`).  Fallible code returns `Except`.
-/

namespace BudgetNormalizer

/-- The character set matched by the JavaScript regular expression `\s`
(and removed by `String.prototype.trim`): ASCII whitespace, NBSP, the
Unicode `Zs` spaces, the line separators and the BOM. -/
def isJsSpace (c : Char) : Bool :=
  c.toNat = 0x9 || c.toNat = 0xA || c.toNat = 0xB || c.toNat = 0xC ||
  c.toNat = 0xD || c.toNat = 0x20 || c.toNat = 0xA0 || c.toNat = 0x1680 ||
  (0x2000 ≤ c.toNat && c.toNat ≤ 0x200A) || c.toNat = 0x2028 ||
  c.toNat = 0x2029 || c.toNat = 0x202F || c.toNat = 0x205F ||
  c.toNat = 0x3000 || c.toNat = 0xFEFF

/-- `l` with leading JS whitespace removed. -/
def jsTrimStart (l : List Char) : List Char := l.dropWhile isJsSpace

/-- `l` with trailing JS whitespace removed. -/
def jsTrimEnd (l : List Char) : List Char := (l.reverse.dropWhile isJsSpace).reverse

/-- JavaScript `String.prototype.trim`. -/
def jsTrim (l : List Char) : List Char := jsTrimEnd (jsTrimStart l)

/-- The character class of the currency-symbol strip
`trimmed.replace(/^[$€£¥₹₽₱₩₪₴₦Rr₨₵₲₸₺₼₾₿¢฿₡₢₣₤₥₧₨₪₫₭₮₯₰₱₲₳₴₵₶₷₸₹₺₻₼₽₾₿﷼﹩＄￠￡￥￦]/g, '')`
in the source: `$`, `R`, `r`, `¢`, `£`, `¥`, `฿`, the currency block
U+20A1–U+20BF, `﷼`, `﹩`, `＄`, `￠`, `￡`, `￥`, `￦`. -/
def isCurrencySymbol (c : Char) : Bool :=
  c.toNat = 0x24 || c.toNat = 0x52 || c.toNat = 0x72 || c.toNat = 0xA2 ||
  c.toNat = 0xA3 || c.toNat = 0xA5 || c.toNat = 0xE3F ||
  (0x20A1 ≤ c.toNat && c.toNat ≤ 0x20BF) || c.toNat = 0xFDFC ||
  c.toNat = 0xFE69 || c.toNat = 0xFF04 || c.toNat = 0xFFE0 ||
  c.toNat = 0xFFE1 || c.toNat = 0xFFE5 || c.toNat = 0xFFE6

/-- The currency-symbol strip.  The source regex is anchored at `^` (and not
multiline), so even with the `g` flag it removes at most the one leading
character. -/
def stripLeadingSymbol : List Char → List Char
  | [] => []
  | c :: rest => if isCurrencySymbol c then rest else c :: rest

/-- `withoutCurrency.replace(/^[A-Z]{3}\s*/i, '')`: if the first three
characters are ASCII letters, remove them together with the following
whitespace run.  `[A-Z]` under the `i` flag is exactly the ASCII letters,
which is what `Char.isAlpha` tests. -/
def stripLeadingCode (l : List Char) : List Char :=
  match l with
  | c1 :: c2 :: c3 :: rest =>
    if c1.isAlpha && c2.isAlpha && c3.isAlpha then rest.dropWhile isJsSpace
    else l
  | _ => l

/-- `.replace(/\s*[A-Z]{3}$/i, '')`: if the last three characters are ASCII
letters, remove them together with the whitespace run immediately before
them. -/
def stripTrailingCode (l : List Char) : List Char :=
  match l.reverse with
  | c1 :: c2 :: c3 :: rest =>
    if c1.isAlpha && c2.isAlpha && c3.isAlpha then
      (rest.dropWhile isJsSpace).reverse
    else l
  | _ => l

/-- The `cleanedText` of the source: trim, strip one leading currency
symbol, strip a leading and a trailing three-letter code, trim again. -/
def cleanedTextOf (input : List Char) : List Char :=
  jsTrim (stripTrailingCode (stripLeadingCode (stripLeadingSymbol (jsTrim input))))

/-- JavaScript `String.prototype.lastIndexOf` for a single character:
the index of the last occurrence of `c` in `l`, `-1` if absent. -/
def lastIndexOf (c : Char) : List Char → Int
  | [] => -1
  | x :: xs =>
    let r := lastIndexOf c xs
    if 0 ≤ r then r + 1 else if x = c then 0 else -1

/-- The separator-role decision chain of the source (lines 49–89 of
`src/unnamed/part_001`), translated branch for branch — including the two
trailing-digit-count branches, which the first two conditions make
unreachable, and the initial values `('.', ',')` that survive when no
branch (or no inner branch) assigns. Returns
`(decimalSeparator, thousandSeparator)`. -/
def sepRoles (cleanedText : List Char) : Option Char × Option Char :=
  let lastDotIndex := lastIndexOf '.' cleanedText
  let lastCommaIndex := lastIndexOf ',' cleanedText
  if lastDotIndex < lastCommaIndex then (some ',', some '.')
  else if lastCommaIndex < lastDotIndex then (some '.', some ',')
  else if lastDotIndex = -1 ∧ lastCommaIndex = -1 then (none, none)
  else if lastDotIndex ≠ -1 ∧ lastCommaIndex = -1 then
    let afterLastDot := cleanedText.drop (lastDotIndex.toNat + 1)
    if afterLastDot.length = 2 then (some '.', some ',')
    else if afterLastDot.length = 3 then (none, some '.')
    else (some '.', some ',')
  else if lastCommaIndex ≠ -1 ∧ lastDotIndex = -1 then
    let afterLastComma := cleanedText.drop (lastCommaIndex.toNat + 1)
    if afterLastComma.length = 2 then (some ',', some '.')
    else if afterLastComma.length = 3 then (none, some ',')
    else (some '.', some ',')
  else (some '.', some ',')

/-- JavaScript `String.prototype.split` on a single-character separator:
the list of (possibly empty) parts. -/
def jsSplit (sep : Char) : List Char → List (List Char)
  | [] => [[]]
  | x :: xs =>
    if x = sep then [] :: jsSplit sep xs
    else
      match jsSplit sep xs with
      | [] => [[x]]
      | p :: ps => (x :: p) :: ps

/-- Lines 94–101 of the source: if a decimal separator was assigned and
occurs in the text, `integerPart = parts[0]` and
`decimalPart = parts.slice(1).join('')`; otherwise the whole text is the
integer part and the decimal part defaults to `"00"`. -/
def splitParts (dec : Option Char) (cleanedText : List Char) : List Char × List Char :=
  match dec with
  | some d =>
    if cleanedText.contains d then
      match jsSplit d cleanedText with
      | [] => (cleanedText, ['0', '0'])
      | p :: ps => (p, ps.flatten)
    else (cleanedText, ['0', '0'])
  | none => (cleanedText, ['0', '0'])

/-- `integerPart.replace(new RegExp('\\' + thousandSeparator, 'g'), '')`,
when a thousands separator was assigned. -/
def removeThousands (thou : Option Char) (integerPart : List Char) : List Char :=
  match thou with
  | some t => integerPart.filter (· ≠ t)
  | none => integerPart

/-- `.replace(/\s/g, '')`. -/
def removeSpaces (l : List Char) : List Char := l.filter (fun c => !isJsSpace c)

/-- `integerPart.includes('-') || integerPart.includes('(')`. -/
def isNegativeOf (integerPart : List Char) : Bool :=
  integerPart.contains '-' || integerPart.contains '('

/-- `integerPart.replace(/[-\(\)]/g, '')`. -/
def stripSignChars (integerPart : List Char) : List Char :=
  integerPart.filter (fun c => c ≠ '-' && c ≠ '(' && c ≠ ')')

/-- The validation regex `/^\d*$/`. -/
def allDigits (l : List Char) : Bool := l.all Char.isDigit

/-- `parseInt` on an all-digit string, exact. -/
def strToNat (l : List Char) : Nat :=
  l.foldl (fun a c => a * 10 + (c.toNat - 48)) 0

/-- Helper for `natToStr`: structural recursion on a fuel argument (the
fuel only needs to exceed the number, since the value shrinks by a factor
of ten each step). -/
def natToStrAux : Nat → Nat → List Char
  | 0, _ => []
  | fuel + 1, n =>
    if n < 10 then [Char.ofNat (48 + n)]
    else natToStrAux fuel (n / 10) ++ [Char.ofNat (48 + n % 10)]

/-- `Number.prototype.toString` for a natural number: standard decimal
digits, no leading zeros, `"0"` for zero. -/
def natToStr (n : Nat) : List Char := natToStrAux (n + 1) n

/-- `.padStart(2, '0')`. -/
def padStart2 (l : List Char) : List Char :=
  List.replicate (2 - l.length) '0' ++ l

/-- Lines 131–149 of the source: bring the decimal part to exactly two
digits.  Empty pads to `"00"`, one digit is right-padded, and with three
or more digits the first two are kept and the third alone decides the
round-up (`parseInt(extraDigits[0]) >= 5`; for a non-digit character
`parseInt` yields `NaN` and the comparison is false, which the
`e0.isDigit` guard mirrors — after validation only digits reach this
point).  A round-up that reaches `100` carries into the integer part.
Takes and returns `(integerPart, decimalPart)`. -/
def roundDecimal (integerPart decimalPart : List Char) : List Char × List Char :=
  if decimalPart = [] then (integerPart, ['0', '0'])
  else if decimalPart.length = 1 then (integerPart, decimalPart ++ ['0'])
  else if 2 < decimalPart.length then
    match decimalPart.drop 2 with
    | [] => (integerPart, decimalPart.take 2)
    | e0 :: _ =>
      if e0.isDigit && 5 ≤ e0.toNat - 48 then
        let decimalValue := strToNat (decimalPart.take 2) + 1
        if 100 ≤ decimalValue then
          (natToStr (strToNat integerPart + 1), ['0', '0'])
        else (integerPart, padStart2 (natToStr decimalValue))
      else (integerPart, decimalPart.take 2)
  else (integerPart, decimalPart)

/-- The error taxonomy of the spec: `EmptyInput` for a blank input,
`InvalidCharacters` for leftover non-digit characters. -/
inductive ParseError where
  | emptyInput
  | invalidCharacters
deriving DecidableEq, Repr

/-- The pre-sign integer part: `parts[0]` after thousands-separator and
whitespace removal (lines 91–110 of the source). -/
def intPartPreSign (cleanedText : List Char) : List Char :=
  removeSpaces (removeThousands (sepRoles cleanedText).2
    (splitParts (sepRoles cleanedText).1 cleanedText).1)

/-- The integer part that is validated: the above with `-`, `(`, `)`
stripped (line 114). -/
def intPartOf (cleanedText : List Char) : List Char :=
  stripSignChars (intPartPreSign cleanedText)

/-- The decimal part that is validated: `parts.slice(1).join('')` with
whitespace removed (lines 97 and 110; sign characters are not stripped
from it). -/
def decPartOf (cleanedText : List Char) : List Char :=
  removeSpaces (splitParts (sepRoles cleanedText).1 cleanedText).2

/-- `parseMoney` of `src/unnamed/part_001` (lines 22–155), on `List Char`.
The `typeof` check of line 23 is outside a `String`-typed model; every
other line is translated in order. -/
def parseMoney (input : List Char) : Except ParseError Int :=
  let trimmed := jsTrim input
  if trimmed = [] then .error .emptyInput
  else
    let cleanedText := jsTrim (stripTrailingCode (stripLeadingCode (stripLeadingSymbol trimmed)))
    let ip := intPartOf cleanedText
    let dp := decPartOf cleanedText
    let isNegative := isNegativeOf (intPartPreSign cleanedText)
    if allDigits ip = false then .error .invalidCharacters
    else if allDigits dp = false then .error .invalidCharacters
    else
      let ip' := if ip = [] then ['0'] else ip
      let r := roundDecimal ip' dp
      let result : Int := (strToNat (r.1 ++ r.2) : Int)
      .ok (if isNegative then -result else result)

/-- `parseMoney` on `String` input. -/
def parseMoneyStr (s : String) : Except ParseError Int := parseMoney s.data

/-- `parseMoney` of `src/n8n_parse_money.js` (lines 18–149).  Its body is
token-for-token identical to the one in `src/unnamed/part_001` (the two
files differ only in comments), so the translation is the same pipeline,
written out again. -/
def parseMoneyN8n (input : List Char) : Except ParseError Int :=
  let trimmed := jsTrim input
  if trimmed = [] then .error .emptyInput
  else
    let cleanedText := jsTrim (stripTrailingCode (stripLeadingCode (stripLeadingSymbol trimmed)))
    let ip := intPartOf cleanedText
    let dp := decPartOf cleanedText
    let isNegative := isNegativeOf (intPartPreSign cleanedText)
    if allDigits ip = false then .error .invalidCharacters
    else if allDigits dp = false then .error .invalidCharacters
    else
      let ip' := if ip = [] then ['0'] else ip
      let r := roundDecimal ip' dp
      let result : Int := (strToNat (r.1 ++ r.2) : Int)
      .ok (if isNegative then -result else result)

/-- `parseMoney` of `src/n8n_parse_money.js` on `String` input. -/
def parseMoneyN8nStr (s : String) : Except ParseError Int := parseMoneyN8n s.data

/-! ## Generic list lemmas -/

theorem dropWhile_append_of_exists {p : Char → Bool} {a : List Char} (b : List Char)
    (h : ∃ x ∈ a, p x = false) :
    List.dropWhile p (a ++ b) = List.dropWhile p a ++ b := by
  induction a with
  | nil => obtain ⟨x, hx, _⟩ := h; exact absurd hx (List.not_mem_nil x)
  | cons y ys ih =>
    by_cases hy : p y = true
    · simp only [List.cons_append, List.dropWhile_cons, hy, if_true]
      apply ih
      obtain ⟨x, hx, hpx⟩ := h
      rcases List.mem_cons.mp hx with rfl | hmem
      · exact absurd hy (by simp [hpx])
      · exact ⟨x, hmem, hpx⟩
    · simp only [Bool.not_eq_true] at hy
      simp [List.dropWhile_cons, hy]

theorem dropWhile_eq_nil_of_all {p : Char → Bool} {a : List Char}
    (h : ∀ x ∈ a, p x = true) : List.dropWhile p a = [] := by
  induction a with
  | nil => rfl
  | cons y ys ih =>
    simp only [List.dropWhile_cons, h y (List.mem_cons_self y ys), if_true]
    exact ih fun x hx => h x (List.mem_cons_of_mem y hx)

theorem dropWhile_eq_self_of_all {p : Char → Bool} {a : List Char}
    (h : ∀ x ∈ a, p x = false) : List.dropWhile p a = a := by
  cases a with
  | nil => rfl
  | cons y ys => simp [List.dropWhile_cons, h y (List.mem_cons_self y ys)]

theorem filter_eq_self_of_all {p : Char → Bool} {a : List Char}
    (h : ∀ x ∈ a, p x = true) : List.filter p a = a :=
  List.filter_eq_self.mpr h

theorem mem_of_dropWhile {p : Char → Bool} {l : List Char} {x : Char}
    (h : x ∈ l.dropWhile p) : x ∈ l :=
  (List.dropWhile_suffix p).sublist.subset h

/-! ## Trimming lemmas -/

theorem jsTrimStart_eq_self {l : List Char} (h : ∀ x ∈ l, isJsSpace x = false) :
    jsTrimStart l = l := dropWhile_eq_self_of_all h

theorem jsTrimEnd_eq_self {l : List Char} (h : ∀ x ∈ l, isJsSpace x = false) :
    jsTrimEnd l = l := by
  unfold jsTrimEnd
  rw [dropWhile_eq_self_of_all (by intro x hx; exact h x (List.mem_reverse.mp hx))]
  exact List.reverse_reverse l

theorem jsTrim_eq_self {l : List Char} (h : ∀ x ∈ l, isJsSpace x = false) :
    jsTrim l = l := by
  unfold jsTrim
  rw [jsTrimStart_eq_self h, jsTrimEnd_eq_self h]

theorem jsTrimEnd_append {a b : List Char} (h : ∃ x ∈ b, isJsSpace x = false) :
    jsTrimEnd (a ++ b) = a ++ jsTrimEnd b := by
  unfold jsTrimEnd
  rw [List.reverse_append,
    dropWhile_append_of_exists a.reverse (by
      obtain ⟨x, hx, hpx⟩ := h
      exact ⟨x, List.mem_reverse.mpr hx, hpx⟩),
    List.reverse_append, List.reverse_reverse]

theorem exists_not_space_of_jsTrimEnd_ne_nil {l : List Char} (h : jsTrimEnd l ≠ []) :
    ∃ x ∈ l, isJsSpace x = false := by
  by_contra hall
  push_neg at hall
  apply h
  unfold jsTrimEnd
  rw [dropWhile_eq_nil_of_all (by
    intro x hx
    have := hall x (List.mem_reverse.mp hx)
    simpa using this)]
  rfl

theorem exists_not_space_of_jsTrim_ne_nil {l : List Char} (h : jsTrim l ≠ []) :
    ∃ x ∈ l, isJsSpace x = false := by
  unfold jsTrim at h
  obtain ⟨x, hx, hpx⟩ := exists_not_space_of_jsTrimEnd_ne_nil h
  exact ⟨x, mem_of_dropWhile hx, hpx⟩

/-- Trimming a list obtained by prepending `-` to `s`: the `-` is kept, the
leading whitespace of `s` survives behind it, and the trailing whitespace
still goes. -/
theorem jsTrim_dash_cons {s : List Char} (h : jsTrim s ≠ []) :
    jsTrim ('-' :: s) = '-' :: (s.takeWhile isJsSpace ++ jsTrim s) := by
  have hdash : isJsSpace '-' = false := by decide
  have hsplit : s = s.takeWhile isJsSpace ++ s.dropWhile isJsSpace :=
    (List.takeWhile_append_dropWhile ..).symm
  have hne : jsTrimEnd (jsTrimStart s) ≠ [] := h
  have hex : ∃ x ∈ s.dropWhile isJsSpace, isJsSpace x = false :=
    exists_not_space_of_jsTrimEnd_ne_nil hne
  have h1 : jsTrimStart ('-' :: s) = '-' :: s := by
    simp [jsTrimStart, List.dropWhile_cons, hdash]
  have h2 : jsTrimEnd ('-' :: s) = '-' :: jsTrimEnd s := by
    have : ('-' :: s) = ['-'] ++ s := rfl
    rw [this, jsTrimEnd_append ⟨_, mem_of_dropWhile hex.choose_spec.1,
      hex.choose_spec.2⟩]
    rfl
  have h3 : jsTrimEnd s = s.takeWhile isJsSpace ++ jsTrim s := by
    conv_lhs => rw [hsplit]
    rw [jsTrimEnd_append hex]
    rfl
  show jsTrimEnd (jsTrimStart ('-' :: s)) = _
  rw [h1, ← h3]
  exact h2

/-! ## `lastIndexOf` lemmas -/

theorem lastIndexOf_eq_neg_one {c : Char} {l : List Char} (h : c ∉ l) :
    lastIndexOf c l = -1 := by
  induction l with
  | nil => rfl
  | cons x xs ih =>
    have hx : ¬x = c := fun hxc => h (hxc ▸ List.mem_cons_self x xs)
    have hxs : c ∉ xs := fun hm => h (List.mem_cons_of_mem x hm)
    simp [lastIndexOf, ih hxs, hx]

theorem lastIndexOf_nonneg {c : Char} {l : List Char} (h : c ∈ l) :
    0 ≤ lastIndexOf c l := by
  induction l with
  | nil => exact absurd h (List.not_mem_nil c)
  | cons x xs ih =>
    by_cases hm : c ∈ xs
    · have := ih hm
      simp only [lastIndexOf, this, if_true]
      omega
    · have hx : x = c := by
        rcases List.mem_cons.mp h with h' | h'
        · exact h'.symm
        · exact absurd h' hm
      simp only [lastIndexOf, lastIndexOf_eq_neg_one hm]
      norm_num [hx]

theorem lastIndexOf_append_of_mem {c : Char} {b : List Char} (a : List Char)
    (h : c ∈ b) :
    lastIndexOf c (a ++ b) = a.length + lastIndexOf c b := by
  induction a with
  | nil => simp
  | cons x xs ih =>
    have hmem : c ∈ xs ++ b := List.mem_append_right xs h
    have h0 : 0 ≤ lastIndexOf c (xs ++ b) := lastIndexOf_nonneg hmem
    simp only [List.cons_append, lastIndexOf, ih, h0]
    have : (0:Int) ≤ ↑xs.length + lastIndexOf c b := by
      have := lastIndexOf_nonneg h
      positivity
    rw [if_pos (by rw [← ih] at this; exact h0)]
    simp [List.length_cons]
    omega

theorem lastIndexOf_append_of_not_mem {c : Char} {b : List Char} (a : List Char)
    (h : c ∉ b) :
    lastIndexOf c (a ++ b) = lastIndexOf c a := by
  induction a with
  | nil => simp [lastIndexOf_eq_neg_one h, lastIndexOf]
  | cons x xs ih => simp [lastIndexOf, ih]

/-- The element at a nonnegative `lastIndexOf` really is the character. -/
theorem getElem_lastIndexOf {c : Char} {l : List Char} (h : c ∈ l) :
    ∃ (k : Nat) (hk : k < l.length), lastIndexOf c l = (k : Int) ∧ l[k] = c := by
  induction l with
  | nil => exact absurd h (List.not_mem_nil c)
  | cons x xs ih =>
    by_cases hm : c ∈ xs
    · obtain ⟨k, hk, hval, hget⟩ := ih hm
      refine ⟨k + 1, by simpa using Nat.succ_lt_succ hk, ?_, by simpa using hget⟩
      simp only [lastIndexOf, hval]
      rw [if_pos (by positivity)]
      push_cast
      ring
    · have hx : x = c := by
        rcases List.mem_cons.mp h with h' | h'
        · exact h'.symm
        · exact absurd h' hm
      refine ⟨0, by simp, ?_, by simpa using hx⟩
      simp [lastIndexOf, lastIndexOf_eq_neg_one hm, hx]

/-- When `'.'` and `','` are both present their last indices differ. -/
theorem lastIndexOf_dot_ne_comma {l : List Char} (hd : '.' ∈ l) (hc : ',' ∈ l) :
    lastIndexOf '.' l ≠ lastIndexOf ',' l := by
  obtain ⟨k1, hk1, hv1, hg1⟩ := getElem_lastIndexOf hd
  obtain ⟨k2, hk2, hv2, hg2⟩ := getElem_lastIndexOf hc
  intro heq
  rw [hv1, hv2] at heq
  have : k1 = k2 := by exact_mod_cast heq
  subst this
  rw [hg1] at hg2
  exact absurd hg2 (by decide)

/-! ## `sepRoles` characterizations (only the first three branches of the
source's decision chain are reachable) -/

theorem sepRoles_of_none {l : List Char} (hd : '.' ∉ l) (hc : ',' ∉ l) :
    sepRoles l = (none, none) := by
  unfold sepRoles
  rw [lastIndexOf_eq_neg_one hd, lastIndexOf_eq_neg_one hc]
  norm_num

theorem sepRoles_of_dot_only {l : List Char} (hd : '.' ∈ l) (hc : ',' ∉ l) :
    sepRoles l = (some '.', some ',') := by
  unfold sepRoles
  rw [lastIndexOf_eq_neg_one hc]
  have h0 : 0 ≤ lastIndexOf '.' l := lastIndexOf_nonneg hd
  rw [if_neg (by omega), if_pos (by omega)]

theorem sepRoles_of_comma_only {l : List Char} (hc : ',' ∈ l) (hd : '.' ∉ l) :
    sepRoles l = (some ',', some '.') := by
  unfold sepRoles
  rw [lastIndexOf_eq_neg_one hd]
  have h0 : 0 ≤ lastIndexOf ',' l := lastIndexOf_nonneg hc
  rw [if_pos (by omega)]

theorem sepRoles_of_dot_later {l : List Char}
    (h : lastIndexOf ',' l < lastIndexOf '.' l) :
    sepRoles l = (some '.', some ',') := by
  unfold sepRoles
  rw [if_neg (by omega), if_pos h]

theorem sepRoles_of_comma_later {l : List Char}
    (h : lastIndexOf '.' l < lastIndexOf ',' l) :
    sepRoles l = (some ',', some '.') := by
  unfold sepRoles
  rw [if_pos h]

/-! ## `jsSplit` lemmas -/

theorem jsSplit_ne_nil (sep : Char) (l : List Char) : jsSplit sep l ≠ [] := by
  cases l with
  | nil => simp [jsSplit]
  | cons x xs =>
    by_cases h : x = sep
    · simp [jsSplit, h]
    · simp only [jsSplit, if_neg h]
      cases jsSplit sep xs <;> simp

theorem jsSplit_of_not_mem {sep : Char} {l : List Char} (h : sep ∉ l) :
    jsSplit sep l = [l] := by
  induction l with
  | nil => rfl
  | cons x xs ih =>
    have hx : ¬x = sep := fun hc => h (hc ▸ List.mem_cons_self x xs)
    have hxs : sep ∉ xs := fun hm => h (List.mem_cons_of_mem x hm)
    simp [jsSplit, hx, ih hxs]

theorem jsSplit_append {sep : Char} {a : List Char} (b : List Char) (h : sep ∉ a) :
    jsSplit sep (a ++ sep :: b) = a :: jsSplit sep b := by
  induction a with
  | nil => simp [jsSplit]
  | cons x xs ih =>
    have hx : ¬x = sep := fun hc => h (hc ▸ List.mem_cons_self x xs)
    have hxs : sep ∉ xs := fun hm => h (List.mem_cons_of_mem x hm)
    simp [jsSplit, hx, ih hxs]

theorem jsSplit_flatten (sep : Char) (l : List Char) :
    (jsSplit sep l).flatten = l.filter (· ≠ sep) := by
  induction l with
  | nil => rfl
  | cons x xs ih =>
    by_cases h : x = sep
    · subst h
      simp [jsSplit, List.filter_cons, ih]
    · simp only [jsSplit, if_neg h]
      have := jsSplit_ne_nil sep xs
      match hq : jsSplit sep xs with
      | [] => exact absurd hq this
      | p :: ps =>
        rw [hq] at ih
        simp only [List.flatten_cons] at ih ⊢
        simp only [ne_eq, decide_not] at ih
        simp [List.filter_cons, h, ← ih]

/-- The split of lines 94–101 on a text that does contain the decimal
separator: the part before the first occurrence, and the rest with every
further occurrence removed. -/
theorem splitParts_some {d : Char} {a : List Char} (b : List Char) (ha : d ∉ a) :
    splitParts (some d) (a ++ d :: b) = (a, b.filter (· ≠ d)) := by
  simp only [splitParts]
  rw [if_pos (by simp)]
  rw [jsSplit_append b ha]
  have := jsSplit_ne_nil d b
  match hq : jsSplit d b with
  | [] => exact absurd hq this
  | p :: ps =>
    have hfl : (jsSplit d b).flatten = b.filter (· ≠ d) := jsSplit_flatten d b
    rw [hq] at hfl
    simpa using hfl

theorem splitParts_not_mem {d : Char} {l : List Char} (h : d ∉ l) :
    splitParts (some d) l = (l, ['0', '0']) := by
  simp only [splitParts]
  rw [if_neg (by simpa using h)]

theorem splitParts_none (l : List Char) :
    splitParts none l = (l, ['0', '0']) := rfl

/-! ## Digit-string arithmetic -/

theorem strToNat_step (v : Nat) (l : List Char) :
    l.foldl (fun a c => a * 10 + (c.toNat - 48)) v =
      v * 10 ^ l.length + strToNat l := by
  induction l generalizing v with
  | nil => simp [strToNat]
  | cons c cs ih =>
    simp only [List.foldl_cons, List.length_cons, strToNat] at *
    rw [ih, ih (0 * 10 + (c.toNat - 48))]
    ring

theorem strToNat_append (a b : List Char) :
    strToNat (a ++ b) = strToNat a * 10 ^ b.length + strToNat b := by
  unfold strToNat
  rw [List.foldl_append]
  exact strToNat_step _ b

theorem digit_char_ofNat (m : Nat) (h : m < 10) :
    (Char.ofNat (48 + m)).toNat - 48 = m := by
  interval_cases m <;> decide

/-- The fuel of `natToStrAux` is irrelevant as long as it exceeds the
number. -/
theorem natToStrAux_irrel (f1 : Nat) : ∀ (f2 n : Nat), n < f1 → n < f2 →
    natToStrAux f1 n = natToStrAux f2 n := by
  induction f1 with
  | zero => intro f2 n h1 _; omega
  | succ f1 ih =>
    intro f2 n h1 h2
    cases f2 with
    | zero => omega
    | succ f2 =>
      by_cases h : n < 10
      · simp [natToStrAux, h]
      · simp only [natToStrAux, h, if_neg, if_false]
        have hdiv : n / 10 < n := Nat.div_lt_self (by omega) (by norm_num)
        rw [ih f2 (n / 10) (by omega) (by omega)]

/-- Recursion equation for `natToStr`. -/
theorem natToStr_eq (n : Nat) :
    natToStr n =
      if n < 10 then [Char.ofNat (48 + n)]
      else natToStr (n / 10) ++ [Char.ofNat (48 + n % 10)] := by
  by_cases h : n < 10
  · simp [natToStr, natToStrAux, h]
  · have h1 : natToStrAux (n + 1) n =
        natToStrAux n (n / 10) ++ [Char.ofNat (48 + n % 10)] := by
      simp [natToStrAux, h]
    rw [if_neg h]
    show natToStrAux (n + 1) n = natToStrAux (n / 10 + 1) (n / 10) ++ _
    have hdiv : n / 10 < n := Nat.div_lt_self (by omega) (by norm_num)
    rw [h1, natToStrAux_irrel n (n / 10 + 1) (n / 10) (by omega) (by omega)]

theorem strToNat_natToStr (n : Nat) : strToNat (natToStr n) = n := by
  induction n using Nat.strong_induction_on with
  | _ n ih =>
    rw [natToStr_eq]
    by_cases h : n < 10
    · simp only [h, if_pos]
      simp [strToNat, digit_char_ofNat n h]
    · simp only [h, if_neg, if_false]
      rw [strToNat_append]
      have hlt : n / 10 < n :=
        Nat.div_lt_self (by omega) (by norm_num)
      rw [ih (n / 10) hlt]
      simp only [List.length_singleton, pow_one]
      have : strToNat [Char.ofNat (48 + n % 10)] = n % 10 := by
        simp [strToNat, digit_char_ofNat (n % 10) (Nat.mod_lt n (by norm_num))]
      rw [this]
      omega

theorem natToStr_length_one (n : Nat) (h : n < 10) :
    natToStr n = [Char.ofNat (48 + n)] := by
  rw [natToStr_eq]
  simp [h]

theorem natToStr_lt_100 (n : Nat) (h1 : 10 ≤ n) (h2 : n < 100) :
    natToStr n = [Char.ofNat (48 + n / 10), Char.ofNat (48 + n % 10)] := by
  rw [natToStr_eq]
  rw [if_neg (by omega)]
  rw [natToStr_length_one (n / 10) (by omega)]
  rfl

theorem strToNat_padStart2_natToStr (v : Nat) (h1 : 1 ≤ v) (h2 : v < 100) :
    padStart2 (natToStr v) = [Char.ofNat (48 + v / 10), Char.ofNat (48 + v % 10)] ∧
      strToNat (padStart2 (natToStr v)) = v := by
  by_cases h : v < 10
  · rw [natToStr_length_one v h]
    constructor
    · simp [padStart2, List.replicate]
      constructor
      · have : v / 10 = 0 := Nat.div_eq_of_lt h
        rw [this]
      · have : v % 10 = v := Nat.mod_eq_of_lt h
        rw [this]
    · simp [padStart2, List.replicate, strToNat, digit_char_ofNat v h]
  · rw [natToStr_lt_100 v (by omega) h2]
    refine ⟨by simp [padStart2], ?_⟩
    simp only [padStart2, List.length_cons, List.length_nil]
    norm_num [List.replicate]
    simp [strToNat, digit_char_ofNat (v / 10) (by omega),
      digit_char_ofNat (v % 10) (Nat.mod_lt v (by norm_num))]
    omega

/-- Two-digit read-off. -/
theorem strToNat_two (c1 c2 : Char) :
    strToNat [c1, c2] = (c1.toNat - 48) * 10 + (c2.toNat - 48) := by
  simp [strToNat]

/-- A digit character's code point lies in `[48, 57]`. -/
theorem digit_toNat_bounds {c : Char} (h : c.isDigit = true) :
    48 ≤ c.toNat ∧ c.toNat ≤ 57 := by
  simp only [Char.isDigit, Bool.and_eq_true, decide_eq_true_eq, ge_iff_le] at h
  obtain ⟨h1, h2⟩ := h
  exact ⟨UInt32.le_toNat_of_le (by norm_num [UInt32.size]) h1,
    UInt32.toNat_le_of_le (by norm_num [UInt32.size]) h2⟩

/-- A digit character's value is below ten. -/
theorem digit_val_lt_10 {c : Char} (h : c.isDigit = true) : c.toNat - 48 < 10 := by
  have := digit_toNat_bounds h
  omega

/-! ## `roundDecimal` on short decimal parts -/

theorem roundDecimal_nil (ip : List Char) :
    roundDecimal ip [] = (ip, ['0', '0']) := by
  simp [roundDecimal]

theorem roundDecimal_one (ip : List Char) (d : Char) :
    roundDecimal ip [d] = (ip, [d, '0']) := by
  simp [roundDecimal]

theorem roundDecimal_two (ip : List Char) (d e : Char) :
    roundDecimal ip [d, e] = (ip, [d, e]) := by
  simp [roundDecimal]

/-- Unfolding of `roundDecimal` on a decimal part of three or more
digits. -/
theorem roundDecimal_ge3 (ip : List Char) (d0 d1 d2 : Char) (rest : List Char) :
    roundDecimal ip (d0 :: d1 :: d2 :: rest) =
      if d2.isDigit && 5 ≤ d2.toNat - 48 then
        (if 100 ≤ strToNat [d0, d1] + 1 then
           (natToStr (strToNat ip + 1), ['0', '0'])
         else (ip, padStart2 (natToStr (strToNat [d0, d1] + 1))))
      else (ip, [d0, d1]) := by
  simp only [roundDecimal]
  rw [if_neg (by simp), if_neg (by simp only [List.length_cons]; omega),
    if_pos (by simp only [List.length_cons]; omega)]
  simp only [List.drop_succ_cons, List.drop_zero, List.take_succ_cons,
    List.take_zero]

/-! ## Unfolding `parseMoney` -/

theorem parseMoney_empty {input : List Char} (h : jsTrim input = []) :
    parseMoney input = .error .emptyInput := by
  simp [parseMoney, h]

theorem cleanedTextOf_fold (input : List Char) :
    jsTrim (stripTrailingCode (stripLeadingCode (stripLeadingSymbol (jsTrim input)))) =
      cleanedTextOf input := rfl

theorem parseMoney_invalid_int {input : List Char} (hne : jsTrim input ≠ [])
    (h1 : allDigits (intPartOf (cleanedTextOf input)) = false) :
    parseMoney input = .error .invalidCharacters := by
  simp only [parseMoney, cleanedTextOf_fold]
  simp [hne, h1]

theorem parseMoney_invalid_dec {input : List Char} (hne : jsTrim input ≠ [])
    (h2 : allDigits (decPartOf (cleanedTextOf input)) = false) :
    parseMoney input = .error .invalidCharacters := by
  simp only [parseMoney, cleanedTextOf_fold]
  by_cases h1 : allDigits (intPartOf (cleanedTextOf input)) = true
  · simp [hne, h1, h2]
  · simp only [Bool.not_eq_true] at h1
    simp [hne, h1]

theorem parseMoney_formula {input : List Char} (hne : jsTrim input ≠ [])
    (h1 : allDigits (intPartOf (cleanedTextOf input)) = true)
    (h2 : allDigits (decPartOf (cleanedTextOf input)) = true) :
    parseMoney input =
      .ok (let c := cleanedTextOf input
           let ip := intPartOf c
           let r := roundDecimal (if ip = [] then ['0'] else ip) (decPartOf c)
           let result : Int := (strToNat (r.1 ++ r.2) : Int)
           if isNegativeOf (intPartPreSign c) then -result else result) := by
  simp only [parseMoney, cleanedTextOf_fold]
  simp [hne, h1, h2]

end BudgetNormalizer

namespace BudgetNormalizer

/-! ## Character-class facts -/

theorem isJsSpace_iff (c : Char) :
    isJsSpace c = true ↔
      (c.toNat = 0x9 ∨ c.toNat = 0xA ∨ c.toNat = 0xB ∨ c.toNat = 0xC ∨
       c.toNat = 0xD ∨ c.toNat = 0x20 ∨ c.toNat = 0xA0 ∨ c.toNat = 0x1680 ∨
       (0x2000 ≤ c.toNat ∧ c.toNat ≤ 0x200A) ∨ c.toNat = 0x2028 ∨
       c.toNat = 0x2029 ∨ c.toNat = 0x202F ∨ c.toNat = 0x205F ∨
       c.toNat = 0x3000 ∨ c.toNat = 0xFEFF) := by
  simp [isJsSpace, Bool.or_eq_true, Bool.and_eq_true, decide_eq_true_eq,
    or_assoc]

theorem isCurrencySymbol_iff (c : Char) :
    isCurrencySymbol c = true ↔
      (c.toNat = 0x24 ∨ c.toNat = 0x52 ∨ c.toNat = 0x72 ∨ c.toNat = 0xA2 ∨
       c.toNat = 0xA3 ∨ c.toNat = 0xA5 ∨ c.toNat = 0xE3F ∨
       (0x20A1 ≤ c.toNat ∧ c.toNat ≤ 0x20BF) ∨ c.toNat = 0xFDFC ∨
       c.toNat = 0xFE69 ∨ c.toNat = 0xFF04 ∨ c.toNat = 0xFFE0 ∨
       c.toNat = 0xFFE1 ∨ c.toNat = 0xFFE5 ∨ c.toNat = 0xFFE6) := by
  simp [isCurrencySymbol, Bool.or_eq_true, Bool.and_eq_true,
    decide_eq_true_eq, or_assoc]

/-- An ASCII letter's code point lies in `[65, 90]` or `[97, 122]`. -/
theorem alpha_toNat_bounds {c : Char} (h : c.isAlpha = true) :
    (65 ≤ c.toNat ∧ c.toNat ≤ 90) ∨ (97 ≤ c.toNat ∧ c.toNat ≤ 122) := by
  simp only [Char.isAlpha, Char.isUpper, Char.isLower, Bool.or_eq_true,
    Bool.and_eq_true, decide_eq_true_eq, ge_iff_le] at h
  rcases h with ⟨h1, h2⟩ | ⟨h1, h2⟩
  · exact Or.inl ⟨UInt32.le_toNat_of_le (by norm_num [UInt32.size]) h1,
      UInt32.toNat_le_of_le (by norm_num [UInt32.size]) h2⟩
  · exact Or.inr ⟨UInt32.le_toNat_of_le (by norm_num [UInt32.size]) h1,
      UInt32.toNat_le_of_le (by norm_num [UInt32.size]) h2⟩

theorem digit_not_space {c : Char} (h : c.isDigit = true) :
    isJsSpace c = false := by
  have hb := digit_toNat_bounds h
  by_contra hs
  rw [Bool.not_eq_false, isJsSpace_iff] at hs
  omega

theorem digit_not_symbol {c : Char} (h : c.isDigit = true) :
    isCurrencySymbol c = false := by
  have hb := digit_toNat_bounds h
  by_contra hs
  rw [Bool.not_eq_false, isCurrencySymbol_iff] at hs
  omega

theorem digit_not_alpha {c : Char} (h : c.isDigit = true) :
    c.isAlpha = false := by
  have hb := digit_toNat_bounds h
  by_contra hs
  rw [Bool.not_eq_false] at hs
  have := alpha_toNat_bounds hs
  omega

theorem space_not_alpha {c : Char} (h : isJsSpace c = true) :
    c.isAlpha = false := by
  rw [isJsSpace_iff] at h
  by_contra hs
  rw [Bool.not_eq_false] at hs
  have := alpha_toNat_bounds hs
  omega

theorem digit_toNat_ne {c x : Char} (h : c.isDigit = true)
    (hx : x.toNat < 48 ∨ 57 < x.toNat) : c ≠ x := by
  have hb := digit_toNat_bounds h
  intro he
  subst he
  omega

theorem contains_iff {l : List Char} {a : Char} :
    l.contains a = true ↔ a ∈ l := by
  induction l with
  | nil => simp
  | cons x xs ih => simp [List.contains_cons, ih]

/-! ## Cleaning no-op lemmas -/

theorem stripLeadingSymbol_of_head {x : Char} (rest : List Char)
    (h : isCurrencySymbol x = false) :
    stripLeadingSymbol (x :: rest) = x :: rest := by
  simp [stripLeadingSymbol, h]

theorem stripLeadingCode_of_head {x : Char} (rest : List Char)
    (h : x.isAlpha = false) :
    stripLeadingCode (x :: rest) = x :: rest := by
  cases rest with
  | nil => rfl
  | cons y r2 =>
    cases r2 with
    | nil => rfl
    | cons z r3 => simp [stripLeadingCode, h]

theorem stripTrailingCode_of_last {x : Char} {l r : List Char}
    (hrev : l.reverse = x :: r) (h : x.isAlpha = false) :
    stripTrailingCode l = l := by
  unfold stripTrailingCode
  rw [hrev]
  cases r with
  | nil => rfl
  | cons y r2 =>
    cases r2 with
    | nil => rfl
    | cons z r3 => simp [h]

/-- Full cleaning is the identity on a non-empty whitespace-free string
whose first character is neither a currency symbol nor a letter and whose
last character is not a letter. -/
theorem cleanedTextOf_eq_self {x : Char} {rest : List Char}
    (hns : ∀ y ∈ x :: rest, isJsSpace y = false)
    (hsym : isCurrencySymbol x = false) (halpha : x.isAlpha = false)
    (hlast : ∀ z r, (x :: rest).reverse = z :: r → z.isAlpha = false) :
    cleanedTextOf (x :: rest) = x :: rest := by
  unfold cleanedTextOf
  rw [jsTrim_eq_self hns, stripLeadingSymbol_of_head rest hsym,
    stripLeadingCode_of_head rest halpha]
  obtain ⟨z, r, hrev⟩ : ∃ z r, (x :: rest).reverse = z :: r := by
    cases hr : (x :: rest).reverse with
    | nil => exact absurd (List.reverse_eq_nil_iff.mp hr) (by simp)
    | cons z r => exact ⟨z, r, rfl⟩
  rw [stripTrailingCode_of_last hrev (hlast z r hrev), jsTrim_eq_self hns]

/-! ## Claim theorems -/

/-- **C4**: for a decimal part of three or more digits, only the third digit
decides rounding: the first two digits form the base, all digits past the
third are ignored, the base is incremented exactly when the third digit is
at least `5`, and an increment that reaches `100` resets the decimal part
to `"00"` and increments the integer part — in particular integer part
`"9"` with decimal `"995"` yields `"10"` and `"00"`. -/
theorem c4_rounding_third_digit
    (ip : List Char) (d0 d1 d2 : Char) (rest : List Char)
    (hip : allDigits ip = true)
    (h0 : d0.isDigit = true) (h1 : d1.isDigit = true) (h2 : d2.isDigit = true) :
    ((roundDecimal ip (d0 :: d1 :: d2 :: rest)).2.length = 2 ∧
     strToNat (roundDecimal ip (d0 :: d1 :: d2 :: rest)).2 =
       (if 5 ≤ d2.toNat - 48 then
          ((d0.toNat - 48) * 10 + (d1.toNat - 48) + 1) % 100
        else (d0.toNat - 48) * 10 + (d1.toNat - 48)) ∧
     strToNat (roundDecimal ip (d0 :: d1 :: d2 :: rest)).1 =
       strToNat ip +
         (if 5 ≤ d2.toNat - 48 ∧ (d0.toNat - 48) * 10 + (d1.toNat - 48) = 99
          then 1 else 0)) ∧
    roundDecimal ['9'] ['9', '9', '5'] = (['1', '0'], ['0', '0']) := by
  have hconc : roundDecimal ['9'] ['9', '9', '5'] = (['1', '0'], ['0', '0']) := by
    rfl
  refine ⟨?_, hconc⟩
  have hb0 : d0.toNat - 48 < 10 := digit_val_lt_10 h0
  have hb1 : d1.toNat - 48 < 10 := digit_val_lt_10 h1
  rw [roundDecimal_ge3]
  by_cases hc : 5 ≤ d2.toNat - 48
  · rw [if_pos (by simp [h2, hc])]
    by_cases h99 : (d0.toNat - 48) * 10 + (d1.toNat - 48) = 99
    · rw [if_pos (by rw [strToNat_two]; omega)]
      refine ⟨rfl, ?_, ?_⟩
      · rw [if_pos hc, h99]
        rfl
      · rw [strToNat_natToStr, if_pos ⟨hc, h99⟩]
    · rw [if_neg (by rw [strToNat_two]; omega)]
      have hlt : strToNat [d0, d1] + 1 < 100 := by rw [strToNat_two]; omega
      obtain ⟨hpad, hval⟩ :=
        strToNat_padStart2_natToStr (strToNat [d0, d1] + 1) (by omega) hlt
      refine ⟨by rw [hpad]; rfl, ?_, ?_⟩
      · rw [hval, strToNat_two, if_pos hc,
          Nat.mod_eq_of_lt (by omega)]
      · rw [if_neg (by intro hand; exact h99 hand.2)]
        rfl
  · rw [if_neg (by simp [hc])]
    refine ⟨rfl, ?_, ?_⟩
    · rw [strToNat_two, if_neg hc]
    · rw [if_neg (by intro hand; exact hc hand.1)]
      rfl

/-- **C5**: `parseMoney` fails with `EmptyInput` exactly when the input
trims to nothing; it fails with `InvalidCharacters` exactly when, after
cleaning, splitting and sign stripping, the integer part or the decimal
part contains a non-digit; in every other case it returns an integer, and
no other failure kind occurs. -/
theorem c5_error_taxonomy (input : List Char) :
    (parseMoney input = .error .emptyInput ↔ jsTrim input = []) ∧
    (parseMoney input = .error .invalidCharacters ↔
      jsTrim input ≠ [] ∧
        (allDigits (intPartOf (cleanedTextOf input)) = false ∨
         allDigits (decPartOf (cleanedTextOf input)) = false)) ∧
    ((∃ n : Int, parseMoney input = .ok n) ↔
      jsTrim input ≠ [] ∧ allDigits (intPartOf (cleanedTextOf input)) = true ∧
        allDigits (decPartOf (cleanedTextOf input)) = true) := by
  by_cases he : jsTrim input = []
  · rw [parseMoney_empty he]
    simp [he]
  · by_cases hi : allDigits (intPartOf (cleanedTextOf input)) = true
    · by_cases hd : allDigits (decPartOf (cleanedTextOf input)) = true
      · rw [parseMoney_formula he hi hd]
        simp [he, hi, hd]
      · have hd' : allDigits (decPartOf (cleanedTextOf input)) = false := by
          simpa using hd
        rw [parseMoney_invalid_dec he hd']
        simp [he, hi, hd']
    · have hi' : allDigits (intPartOf (cleanedTextOf input)) = false := by
        simpa using hi
      rw [parseMoney_invalid_int he hi']
      simp [he, hi']

/-- **C2** (evaluation at the claimed end-to-end scenarios): the code maps
`"$1,234.56"` to `123456`, `"₹1,23,456.78"` to `12345678`,
`"£10,000,000.00"` to `1000000000` and `""` to `EmptyInput` as claimed, but
maps `"¥1,234"` to `123` — not to the claimed `123400`: the comma is
treated as the decimal separator (the trailing-digit-count branch that
would classify it as a thousands separator is unreachable) and `"234"` is
rounded to `"23"`. -/
theorem c2_end_to_end_eval :
    parseMoneyStr "$1,234.56" = .ok 123456 ∧
    parseMoneyStr "¥1,234" = .ok 123 ∧
    parseMoneyStr "₹1,23,456.78" = .ok 12345678 ∧
    parseMoneyStr "£10,000,000.00" = .ok 1000000000 ∧
    parseMoneyStr "" = .error .emptyInput ∧
    parseMoneyStr "¥1,234" ≠ .ok 123400 := by
  refine ⟨rfl, rfl, rfl, rfl, rfl, ?_⟩
  intro h
  rw [show parseMoneyStr "¥1,234" = Except.ok 123 from rfl] at h
  exact absurd (Except.ok.inj h) (by decide)

/-- **C8** (evaluation): the accounting-style parenthesized forms of
`"$500.25"` do **not** normalize to `-50025`: the closing parenthesis ends
up in the decimal part (or the `$` survives inside the integer part for
`"($500.25)"`), where sign characters are never stripped, so validation
fails with `InvalidCharacters`; the dash-negated `"$-500.25"` yields
`-50025`. -/
theorem c8_paren_vs_dash_eval :
    parseMoneyStr "$(500.25)" = .error .invalidCharacters ∧
    parseMoneyStr "($500.25)" = .error .invalidCharacters ∧
    parseMoneyStr "$-500.25" = .ok (-50025) :=
  ⟨rfl, rfl, rfl⟩

/-- **C9**: the `parseMoney` of `src/n8n_parse_money.js` and the
`parseMoney` of `src/unnamed/part_001` agree on every input (their bodies
are token-for-token identical). -/
theorem c9_parse_money_variants_agree :
    (∀ input : List Char, parseMoneyN8n input = parseMoney input) ∧
    (∀ s : String, parseMoneyN8nStr s = parseMoneyStr s) :=
  ⟨fun _ => rfl, fun _ => rfl⟩

/-- **C3** is false as stated: `"1,2345"` — a cleaned input with a single
separator kind whose last occurrence is followed by four digits — is not
treated as a thousands-separated integer (which would give `1234500`); the
comma is taken as the decimal separator and the result is `123`. -/
theorem c3_counterexample :
    parseMoneyStr "1,2345" = .ok 123 ∧ parseMoneyStr "1,2345" ≠ .ok 1234500 := by
  refine ⟨rfl, ?_⟩
  intro h
  rw [show parseMoneyStr "1,2345" = Except.ok 123 from rfl] at h
  exact absurd (Except.ok.inj h) (by decide)

/-- **C7** is false as stated: `s = "$500.25"` contains no sign marker and
parses to `50025`, yet `"-" ++ s` fails with `InvalidCharacters` (the
leading `-` prevents the currency-symbol strip, so the `$` survives into
the integer part). -/
theorem c7_counterexample :
    ('-' ∉ "$500.25".data ∧ '(' ∉ "$500.25".data ∧ ')' ∉ "$500.25".data) ∧
    parseMoneyStr "$500.25" = .ok 50025 ∧
    parseMoneyStr "-$500.25" = .error .invalidCharacters :=
  ⟨by refine ⟨?_, ?_, ?_⟩ <;> decide, rfl, rfl⟩

/-- **C10** is false as stated: `"RUB"` is a non-empty input consisting of
a 3-letter alphabetic currency code alone, yet normalization fails: the
leading `R` is consumed by the currency-symbol strip (the symbol class
contains `R` and `r`), the remaining `"UB"` no longer matches the
three-letter code pattern, and validation rejects it. -/
theorem c10_counterexample :
    parseMoneyStr "RUB" = .error .invalidCharacters ∧
    parseMoneyStr "RUB" ≠ .ok 0 := by
  refine ⟨rfl, ?_⟩
  intro h
  rw [show parseMoneyStr "RUB" = Except.error .invalidCharacters from rfl] at h
  cases h

/-- **C6**: whenever the cleaned text contains both `'.'` and `','`, the
one whose last occurrence is later is the decimal separator and the other
the thousands separator (their last occurrences can never coincide); in
particular `"$1,234.56"` and `"€1.234,56"` both normalize to `123456`. -/
theorem c6_later_separator_is_decimal (c : List Char)
    (hd : '.' ∈ c) (hc : ',' ∈ c) :
    (lastIndexOf ',' c < lastIndexOf '.' c →
      sepRoles c = (some '.', some ',')) ∧
    (lastIndexOf '.' c < lastIndexOf ',' c →
      sepRoles c = (some ',', some '.')) ∧
    lastIndexOf '.' c ≠ lastIndexOf ',' c ∧
    parseMoneyStr "$1,234.56" = .ok 123456 ∧
    parseMoneyStr "€1.234,56" = .ok 123456 :=
  ⟨fun h => sepRoles_of_dot_later h, fun h => sepRoles_of_comma_later h,
    lastIndexOf_dot_ne_comma hd hc, rfl, rfl⟩

/-- Witness for `c6_later_separator_is_decimal` at the cleaned text
`"1.234,56"`. -/
theorem c6_witness :
    ('.' ∈ "1.234,56".data ∧ ',' ∈ "1.234,56".data) ∧
    sepRoles "1.234,56".data = (some ',', some '.') :=
  ⟨⟨by decide, by decide⟩,
   (c6_later_separator_is_decimal "1.234,56".data (by decide)
     (by decide)).2.1 (by decide)⟩

/-- **C3** (amended): when only one separator kind appears in the cleaned
text and the number of digits after its last occurrence is neither 2 nor
3, the separator is treated as the **decimal** separator — not as a
thousands separator (the thousands-defaulting branches of the source are
unreachable): the text is split at it and the part after it is normalized
to two digits with third-digit rounding, so `"1.2345"` and `"1,2345"`
both normalize to `123`, not `1234500`. -/
theorem c3_single_separator_is_decimal (c : List Char) :
    ('.' ∈ c → ',' ∉ c →
      (c.drop ((lastIndexOf '.' c).toNat + 1)).length ≠ 2 →
      (c.drop ((lastIndexOf '.' c).toNat + 1)).length ≠ 3 →
      sepRoles c = (some '.', some ',')) ∧
    (',' ∈ c → '.' ∉ c →
      (c.drop ((lastIndexOf ',' c).toNat + 1)).length ≠ 2 →
      (c.drop ((lastIndexOf ',' c).toNat + 1)).length ≠ 3 →
      sepRoles c = (some ',', some '.')) ∧
    parseMoneyStr "1.2345" = .ok 123 ∧
    parseMoneyStr "1,2345" = .ok 123 :=
  ⟨fun h1 h2 _ _ => sepRoles_of_dot_only h1 h2,
   fun h1 h2 _ _ => sepRoles_of_comma_only h1 h2, rfl, rfl⟩

/-- Witness for `c3_single_separator_is_decimal` at the cleaned text
`"1.2345"` (four digits after the lone dot). -/
theorem c3_witness :
    ('.' ∈ "1.2345".data ∧ ',' ∉ "1.2345".data ∧
      ("1.2345".data.drop ((lastIndexOf '.' "1.2345".data).toNat + 1)).length = 4) ∧
    sepRoles "1.2345".data = (some '.', some ',') :=
  ⟨⟨by decide, by decide, by decide⟩,
   (c3_single_separator_is_decimal "1.2345".data).1 (by decide) (by decide)
     (by decide) (by decide)⟩

/-- Witness for `c4_rounding_third_digit` at integer part `"1"` and
decimal part `"567"` (the spec's example: rounds to `"57"`), together with
the overflow example carried inside the theorem. -/
theorem c4_witness :
    ((roundDecimal ['1'] ('5' :: '6' :: '7' :: [])).2.length = 2 ∧
     strToNat (roundDecimal ['1'] ('5' :: '6' :: '7' :: [])).2 =
       (if 5 ≤ ('7' : Char).toNat - 48 then
          ((('5' : Char).toNat - 48) * 10 + (('6' : Char).toNat - 48) + 1) % 100
        else (('5' : Char).toNat - 48) * 10 + (('6' : Char).toNat - 48)) ∧
     strToNat (roundDecimal ['1'] ('5' :: '6' :: '7' :: [])).1 =
       strToNat ['1'] +
         (if 5 ≤ ('7' : Char).toNat - 48 ∧
             (('5' : Char).toNat - 48) * 10 + (('6' : Char).toNat - 48) = 99
          then 1 else 0)) ∧
    roundDecimal ['9'] ['9', '9', '5'] = (['1', '0'], ['0', '0']) :=
  c4_rounding_third_digit ['1'] '5' '6' '7' [] (by decide) (by decide)
    (by decide) (by decide)

/-- **C1**: every valid decimal numeral — an optional minus sign, a
non-empty run of digits, and an optional `'.'` followed by at most two
fractional digits — normalizes successfully to exactly its value in minor
units, `round(D · 100)` computed exactly: the integer digits times `100`
plus the fraction digits scaled to two places, negated under the sign. -/
theorem c1_valid_decimal_exact
    (neg hasDot : Bool) (intDs fracDs : List Char)
    (hint : intDs ≠ []) (hintd : ∀ c ∈ intDs, c.isDigit = true)
    (hfracd : ∀ c ∈ fracDs, c.isDigit = true) (hlen : fracDs.length ≤ 2)
    (hdot : hasDot = false → fracDs = []) :
    parseMoney ((if neg then ['-'] else []) ++ intDs ++
        (if hasDot then '.' :: fracDs else [])) =
      .ok ((if neg then -1 else 1) *
        (strToNat intDs * 100 + strToNat fracDs * 10 ^ (2 - fracDs.length))) := by
  set sign := (if neg then ['-'] else []) with hsign
  set dotPart := (if hasDot then '.' :: fracDs else []) with hdotPart
  set D := sign ++ intDs ++ dotPart with hD
  have hsignMem : ∀ x ∈ sign, x = '-' := by
    intro x hx
    rw [hsign] at hx
    cases neg <;> simp at hx
    exact hx
  have hdotMem : ∀ x ∈ dotPart, x = '.' ∨ x ∈ fracDs := by
    intro x hx
    rw [hdotPart] at hx
    cases hasDot <;> simp at hx
    exact hx
  have hDmem : ∀ x ∈ D, x = '-' ∨ x.isDigit = true ∨ x = '.' := by
    intro x hx
    rw [hD] at hx
    rcases List.mem_append.mp hx with hx' | hx'
    · rcases List.mem_append.mp hx' with hx'' | hx''
      · exact Or.inl (hsignMem x hx'')
      · exact Or.inr (Or.inl (hintd x hx''))
    · rcases hdotMem x hx' with rfl | hx''
      · exact Or.inr (Or.inr rfl)
      · exact Or.inr (Or.inl (hfracd x hx''))
  have hns : ∀ y ∈ D, isJsSpace y = false := by
    intro y hy
    rcases hDmem y hy with rfl | hd | rfl
    · decide
    · exact digit_not_space hd
    · decide
  have hsymAll : ∀ x ∈ D, isCurrencySymbol x = false := by
    intro x hx
    rcases hDmem x hx with rfl | hd | rfl
    · decide
    · exact digit_not_symbol hd
    · decide
  have halphaAll : ∀ x ∈ D, x.isAlpha = false := by
    intro x hx
    rcases hDmem x hx with rfl | hd | rfl
    · decide
    · exact digit_not_alpha hd
    · decide
  have hDne : D ≠ [] := by
    intro hnil
    obtain ⟨i, it, hit⟩ : ∃ i it, intDs = i :: it := by
      cases intDs with
      | nil => exact absurd rfl hint
      | cons i it => exact ⟨i, it, rfl⟩
    have : i ∈ D := by
      rw [hD, hit]
      simp
    rw [hnil] at this
    exact List.not_mem_nil i this
  have hclean : cleanedTextOf D = D := by
    cases hDc : D with
    | nil => exact absurd hDc hDne
    | cons x rest =>
      rw [← hDc]
      rw [hDc]
      refine cleanedTextOf_eq_self (hDc ▸ hns) ?_ ?_ ?_
      · exact hsymAll x (by rw [hDc]; exact List.mem_cons_self x rest)
      · exact halphaAll x (by rw [hDc]; exact List.mem_cons_self x rest)
      · intro z r hzr
        have hz : z ∈ D := by
          rw [hDc, ← List.mem_reverse, hzr]
          exact List.mem_cons_self z r
        exact halphaAll z hz
  have hcomma : ',' ∉ D := by
    intro hmem
    rcases hDmem ',' hmem with h | h | h
    · exact absurd h (by decide)
    · exact absurd h (by decide)
    · exact absurd h (by decide)
  have hdotSignInt : '.' ∉ sign ++ intDs := by
    intro hmem
    rcases List.mem_append.mp hmem with h | h
    · exact absurd (hsignMem '.' h) (by decide)
    · exact absurd (hintd '.' h) (by decide)
  have hsignNoParen : '(' ∉ sign ++ intDs := by
    intro hmem
    rcases List.mem_append.mp hmem with h | h
    · exact absurd (hsignMem '(' h) (by decide)
    · exact absurd (hintd '(' h) (by decide)
  have hstrip : stripSignChars (sign ++ intDs) = intDs := by
    unfold stripSignChars
    rw [List.filter_append]
    have h1 : List.filter (fun c => c ≠ '-' && c ≠ '(' && c ≠ ')') sign = [] := by
      cases neg <;> simp [hsign]
    have h2 : List.filter (fun c => c ≠ '-' && c ≠ '(' && c ≠ ')') intDs = intDs := by
      apply filter_eq_self_of_all
      intro x hx
      have hd := hintd x hx
      have e1 : x ≠ '-' := digit_toNat_ne hd (by decide)
      have e2 : x ≠ '(' := digit_toNat_ne hd (by decide)
      have e3 : x ≠ ')' := digit_toNat_ne hd (by decide)
      simp [e1, e2, e3]
    rw [h1, h2]
    rfl
  have hspacesInt : removeSpaces (sign ++ intDs) = sign ++ intDs := by
    apply filter_eq_self_of_all
    intro x hx
    have : isJsSpace x = false := by
      rcases List.mem_append.mp hx with h | h
      · rw [hsignMem x h]; decide
      · exact digit_not_space (hintd x h)
    simp [this]
  have hneg : isNegativeOf (sign ++ intDs) = neg := by
    cases hn : neg
    · unfold isNegativeOf
      rw [hsign, hn]
      have h1 : intDs.contains '-' = false := by
        by_contra hc
        rw [Bool.not_eq_false, contains_iff] at hc
        exact absurd (hintd '-' hc) (by decide)
      have h2 : intDs.contains '(' = false := by
        by_contra hc
        rw [Bool.not_eq_false, contains_iff] at hc
        exact absurd (hintd '(' hc) (by decide)
      show (intDs.contains '-' || intDs.contains '(') = false
      rw [h1, h2]
      rfl
    · unfold isNegativeOf
      rw [hsign, hn]
      show ((('-' :: intDs).contains '-') || (('-' :: intDs).contains '(')) = true
      simp [List.contains_cons]
  have hfilterFrac : fracDs.filter (· ≠ '.') = fracDs := by
    apply filter_eq_self_of_all
    intro x hx
    have : x ≠ '.' := digit_toNat_ne (hfracd x hx) (by decide)
    simp [this]
  -- the split, by presence of the decimal point
  have hsplitAll :
      (sepRoles D = (none, none) ∧
        splitParts (sepRoles D).1 D = (sign ++ intDs, ['0', '0']) ∧ ¬hasDot = true ∨
       sepRoles D = (some '.', some ',') ∧
        splitParts (sepRoles D).1 D = (sign ++ intDs, fracDs) ∧ hasDot = true) := by
    cases hdt : hasDot
    · left
      have hfr : fracDs = [] := hdot hdt
      have hdp : dotPart = [] := by rw [hdotPart, hdt]; rfl
      have hDeq : D = sign ++ intDs := by rw [hD, hdp, List.append_nil]
      have hnodot : '.' ∉ D := by rw [hDeq]; exact hdotSignInt
      have hroles := sepRoles_of_none hnodot hcomma
      refine ⟨hroles, ?_, by simp⟩
      rw [hroles]
      rw [splitParts_none, hDeq]
    · right
      have hdp : dotPart = '.' :: fracDs := by rw [hdotPart, hdt]; rfl
      have hDeq : D = (sign ++ intDs) ++ '.' :: fracDs := by
        rw [hD, hdp, List.append_assoc]
      have hdotmem : '.' ∈ D := by rw [hDeq]; simp
      have hroles := sepRoles_of_dot_only hdotmem hcomma
      refine ⟨hroles, ?_, rfl⟩
      rw [hroles]
      show splitParts (some '.') D = _
      rw [hDeq, splitParts_some fracDs hdotSignInt, hfilterFrac]
  -- the validated parts
  have hip0 : intPartPreSign D = sign ++ intDs := by
    unfold intPartPreSign
    rcases hsplitAll with ⟨hr, hs, _⟩ | ⟨hr, hs, _⟩
    · rw [hs, hr]
      show removeSpaces (sign ++ intDs) = _
      exact hspacesInt
    · rw [hs, hr]
      show removeSpaces (List.filter (fun x => decide (x ≠ ',')) (sign ++ intDs)) = _
      rw [filter_eq_self_of_all (by
        intro x hx
        have : x ≠ ',' := by
          intro he
          subst he
          rcases List.mem_append.mp hx with h | h
          · exact absurd (hsignMem ',' h) (by decide)
          · exact absurd (hintd ',' h) (by decide)
        simp [this])]
      exact hspacesInt
  have hip : intPartOf D = intDs := by
    unfold intPartOf
    rw [hip0, hstrip]
  have hdp :
      decPartOf D = (if hasDot then fracDs else ['0', '0']) := by
    unfold decPartOf
    rcases hsplitAll with ⟨hr, hs, hdt⟩ | ⟨hr, hs, hdt⟩
    · rw [hs]
      simp only [Bool.not_eq_true] at hdt
      rw [hdt]
      rfl
    · rw [hs, hdt]
      show removeSpaces fracDs = fracDs
      apply filter_eq_self_of_all
      intro x hx
      simp [digit_not_space (hfracd x hx)]
  have hipD : allDigits (intPartOf (cleanedTextOf D)) = true := by
    rw [hclean, hip]
    exact List.all_eq_true.mpr hintd
  have hdpD : allDigits (decPartOf (cleanedTextOf D)) = true := by
    rw [hclean, hdp]
    cases hasDot
    · rfl
    · exact List.all_eq_true.mpr hfracd
  have hneD : jsTrim D ≠ [] := by
    have : jsTrim D = D := jsTrim_eq_self hns
    rw [this]
    exact hDne
  rw [parseMoney_formula hneD hipD hdpD]
  simp only [hclean, hip, hdp, hip0, hneg]
  rw [if_neg hint]
  -- reduce the rounding step according to the fraction shape
  have hfinal :
      (roundDecimal intDs (if hasDot then fracDs else ['0', '0'])).1 = intDs ∧
      strToNat (roundDecimal intDs (if hasDot then fracDs else ['0', '0'])).2 =
        strToNat fracDs * 10 ^ (2 - fracDs.length) ∧
      (roundDecimal intDs (if hasDot then fracDs else ['0', '0'])).2.length = 2 := by
    cases hdt : hasDot
    · have hfr : fracDs = [] := hdot hdt
      subst hfr
      have hifr : (if (false = true) then ([] : List Char) else ['0', '0']) =
          ['0', '0'] := rfl
      rw [hifr, roundDecimal_two]
      refine ⟨rfl, ?_, rfl⟩
      simp [strToNat]
    · have hift : (if (true = true) then fracDs else ['0', '0']) = fracDs := rfl
      rw [hift]
      match fracDs, hlen with
      | [], _ =>
        rw [roundDecimal_nil]
        refine ⟨rfl, ?_, rfl⟩
        simp [strToNat]
      | [a], _ =>
        rw [roundDecimal_one]
        refine ⟨rfl, ?_, rfl⟩
        show strToNat [a, '0'] = strToNat [a] * 10 ^ (2 - 1)
        rw [strToNat_two]
        simp [strToNat]
      | [a, b], _ =>
        rw [roundDecimal_two]
        refine ⟨rfl, ?_, rfl⟩
        simp
  obtain ⟨hf1, hf2, hf3⟩ := hfinal
  rw [strToNat_append, hf1, hf2, hf3]
  cases neg
  · simp
  · simp only [if_true]
    push_cast
    ring

/-- Witness for `c1_valid_decimal_exact` at `"-12.5"`, which normalizes to
`-1250`. -/
theorem c1_witness : parseMoneyStr "-12.5" = .ok (-1250) := by
  have h := c1_valid_decimal_exact true true ['1', '2'] ['5'] (by decide)
    (by decide) (by decide) (by decide) (by decide)
  have hdata : "-12.5".data =
      (if true then ['-'] else []) ++ ['1', '2'] ++
        (if true then '.' :: ['5'] else []) := rfl
  show parseMoney "-12.5".data = _
  rw [hdata, h]
  rfl

end BudgetNormalizer

namespace BudgetNormalizer

/-! ## Lemmas for inputs that clean to nothing -/

theorem dropWhile_append_all {p : Char → Bool} {a : List Char} (b : List Char)
    (h : ∀ x ∈ a, p x = true) :
    List.dropWhile p (a ++ b) = List.dropWhile p b := by
  induction a with
  | nil => rfl
  | cons y ys ih =>
    simp only [List.cons_append, List.dropWhile_cons,
      h y (List.mem_cons_self y ys), if_true]
    exact ih fun x hx => h x (List.mem_cons_of_mem y hx)

/-- A whitespace run followed by a three-letter code is removed entirely
by the trailing-code strip. -/
theorem stripTrailingCode_ws_code {w : List Char} {c1 c2 c3 : Char}
    (hw : ∀ x ∈ w, isJsSpace x = true)
    (h1 : c1.isAlpha = true) (h2 : c2.isAlpha = true) (h3 : c3.isAlpha = true) :
    stripTrailingCode (w ++ [c1, c2, c3]) = [] := by
  have hrev : (w ++ [c1, c2, c3]).reverse = c3 :: c2 :: c1 :: w.reverse := by
    simp
  unfold stripTrailingCode
  rw [hrev]
  simp only [h1, h2, h3, Bool.and_self, if_true]
  rw [dropWhile_eq_nil_of_all (by
    intro x hx
    exact hw x (List.mem_reverse.mp hx))]
  rfl

/-- When the cleaned text is empty, `parseMoney` returns `0` (integer
part defaults to `"0"`, decimal part to `"00"`). -/
theorem parseMoney_of_cleaned_empty {input : List Char}
    (hne : jsTrim input ≠ []) (hc : cleanedTextOf input = []) :
    parseMoney input = .ok 0 := by
  have h1 : allDigits (intPartOf (cleanedTextOf input)) = true := by
    rw [hc]; rfl
  have h2 : allDigits (decPartOf (cleanedTextOf input)) = true := by
    rw [hc]; rfl
  rw [parseMoney_formula hne h1 h2]
  simp only [hc]
  rfl

end BudgetNormalizer

namespace BudgetNormalizer

/-- **C10** (amended): a non-empty input consisting (after trimming) of a
recognized currency symbol alone, of a 3-letter alphabetic code alone
whose first letter is not itself in the currency-symbol class (that class
contains `R` and `r`, so codes like `"RUB"` are excluded — see the
counterexample), or of a symbol followed by optional whitespace and a
3-letter code, cleans to the empty string and normalizes to `0`. -/
theorem c10_symbol_or_code_only_zero (input : List Char)
    (h : (∃ sym, jsTrim input = [sym] ∧ isCurrencySymbol sym = true) ∨
         (∃ c1 c2 c3, jsTrim input = [c1, c2, c3] ∧ c1.isAlpha = true ∧
           c2.isAlpha = true ∧ c3.isAlpha = true ∧
           isCurrencySymbol c1 = false) ∨
         (∃ sym w c1 c2 c3, jsTrim input = sym :: (w ++ [c1, c2, c3]) ∧
           isCurrencySymbol sym = true ∧ (∀ x ∈ w, isJsSpace x = true) ∧
           c1.isAlpha = true ∧ c2.isAlpha = true ∧ c3.isAlpha = true)) :
    parseMoney input = .ok 0 := by
  refine parseMoney_of_cleaned_empty ?_ ?_
  · rcases h with ⟨sym, ht, _⟩ | ⟨c1, c2, c3, ht, _⟩ |
      ⟨sym, w, c1, c2, c3, ht, _⟩ <;> rw [ht] <;> simp
  · unfold cleanedTextOf
    rcases h with ⟨sym, ht, hsym⟩ | ⟨c1, c2, c3, ht, h1, h2, h3, hnsym⟩ |
      ⟨sym, w, c1, c2, c3, ht, hsym, hw, h1, h2, h3⟩
    · rw [ht, show stripLeadingSymbol [sym] = [] from by
        simp [stripLeadingSymbol, hsym]]
      rfl
    · rw [ht, stripLeadingSymbol_of_head _ hnsym,
        show stripLeadingCode [c1, c2, c3] = [] from by
          simp [stripLeadingCode, h1, h2, h3]]
      rfl
    · rw [ht, show stripLeadingSymbol (sym :: (w ++ [c1, c2, c3])) =
          w ++ [c1, c2, c3] from by simp [stripLeadingSymbol, hsym]]
      cases w with
      | nil =>
        rw [show stripLeadingCode ([] ++ [c1, c2, c3]) = [] from by
          simp [stripLeadingCode, h1, h2, h3]]
        rfl
      | cons x w2 =>
        simp only [List.cons_append]
        rw [stripLeadingCode_of_head (w2 ++ [c1, c2, c3])
          (space_not_alpha (hw x (List.mem_cons_self x w2)))]
        rw [show (x :: (w2 ++ [c1, c2, c3])) = (x :: w2) ++ [c1, c2, c3] from rfl,
          stripTrailingCode_ws_code hw h1 h2 h3]
        rfl

/-- Witness for `c10_symbol_or_code_only_zero`: the inputs `"$"`, `"USD"`
and `"$ USD"` all normalize to `0`. -/
theorem c10_witness :
    parseMoneyStr "$" = .ok 0 ∧ parseMoneyStr "USD" = .ok 0 ∧
    parseMoneyStr "$ USD" = .ok 0 := by
  refine ⟨?_, ?_, ?_⟩
  · exact c10_symbol_or_code_only_zero "$".data
      (Or.inl ⟨'$', by decide, by decide⟩)
  · exact c10_symbol_or_code_only_zero "USD".data
      (Or.inr (Or.inl ⟨'U', 'S', 'D', by decide, by decide, by decide,
        by decide, by decide⟩))
  · exact c10_symbol_or_code_only_zero "$ USD".data
      (Or.inr (Or.inr ⟨'$', [' '], 'U', 'S', 'D', by decide, by decide,
        by decide, by decide, by decide, by decide⟩))

/-! ## The trailing-code strip seen from the reversed string -/

/-- `stripTrailingCode` acting on the reversed list (proof-side view; the
embedding itself is `stripTrailingCode`). -/
def revStrip (r : List Char) : List Char :=
  match r with
  | c1 :: c2 :: c3 :: rest =>
    if c1.isAlpha && c2.isAlpha && c3.isAlpha then rest.dropWhile isJsSpace
    else r
  | _ => r

theorem stripTrailingCode_eq_revStrip (l : List Char) :
    stripTrailingCode l = (revStrip l.reverse).reverse := by
  suffices h : ∀ (r l : List Char), l.reverse = r →
      stripTrailingCode l = (revStrip r).reverse from h l.reverse l rfl
  intro r
  rcases r with _ | ⟨c1, _ | ⟨c2, _ | ⟨c3, rest⟩⟩⟩ <;> intro l hl <;>
    rw [← List.reverse_reverse l, hl]
  · rfl
  · rfl
  · rfl
  · by_cases hcond : (c1.isAlpha && c2.isAlpha && c3.isAlpha) = true
    · simp [stripTrailingCode, revStrip, hcond]
    · simp [stripTrailingCode, revStrip, hcond]

theorem dropWhile_append_single {rest : List Char} {d : Char}
    (hd : isJsSpace d = false) :
    List.dropWhile isJsSpace (rest ++ [d]) =
      List.dropWhile isJsSpace rest ++ [d] := by
  by_cases hex : ∃ x ∈ rest, isJsSpace x = false
  · exact dropWhile_append_of_exists [d] hex
  · push_neg at hex
    have hall : ∀ x ∈ rest, isJsSpace x = true := by
      intro x hx
      have := hex x hx
      revert this
      cases isJsSpace x <;> simp
    rw [dropWhile_append_all [d] hall, dropWhile_eq_nil_of_all hall]
    simp [List.dropWhile_cons, hd]

theorem dropWhile_append_nonspace {q rest : List Char} {d : Char}
    (hd : isJsSpace d = false) :
    List.dropWhile isJsSpace (rest ++ d :: q) =
      List.dropWhile isJsSpace (rest ++ [d]) ++ q := by
  have h1 : rest ++ d :: q = (rest ++ [d]) ++ q := by simp
  rw [h1, dropWhile_append_of_exists q ⟨d, by simp, hd⟩]

/-- Appending a run after a non-letter, non-space character commutes with
`revStrip`: the three-letter window can never reach past that
character. -/
theorem revStrip_append {s q : List Char} {d : Char}
    (hna : d.isAlpha = false) (hns : isJsSpace d = false) :
    revStrip (s ++ d :: q) = revStrip (s ++ [d]) ++ q := by
  rcases s with _ | ⟨s1, _ | ⟨s2, _ | ⟨s3, rest⟩⟩⟩
  · -- s = []
    rcases q with _ | ⟨q1, _ | ⟨q2, q3⟩⟩ <;> simp [revStrip, hna]
  · -- s = [s1]
    rcases q with _ | ⟨q1, q3⟩ <;> simp [revStrip, hna]
  · -- s = [s1, s2]
    simp [revStrip, hna]
  · -- s = s1 :: s2 :: s3 :: rest
    show revStrip (s1 :: s2 :: s3 :: (rest ++ d :: q)) =
      revStrip (s1 :: s2 :: s3 :: (rest ++ [d])) ++ q
    by_cases hcond : (s1.isAlpha && s2.isAlpha && s3.isAlpha) = true
    · simp only [revStrip, hcond, if_true]
      exact dropWhile_append_nonspace hns
    · simp only [revStrip, hcond, if_false, Bool.false_eq_true]
      simp

/-- Prefixing by arbitrary text commutes with the trailing-code strip as
long as the first character after the prefix is neither a letter nor
whitespace. -/
theorem stripTrailingCode_append_cons (p : List Char) {d : Char} {tl : List Char}
    (hna : d.isAlpha = false) (hns : isJsSpace d = false) :
    stripTrailingCode (p ++ d :: tl) = p ++ stripTrailingCode (d :: tl) := by
  rw [stripTrailingCode_eq_revStrip, stripTrailingCode_eq_revStrip]
  have h1 : (p ++ d :: tl).reverse = tl.reverse ++ d :: p.reverse := by
    simp
  have h2 : (d :: tl).reverse = tl.reverse ++ [d] := by simp
  rw [h1, h2, revStrip_append hna hns, List.reverse_append,
    List.reverse_reverse]

/-- The trailing-code strip never touches a leading non-letter, non-space
character. -/
theorem stripTrailingCode_head {d : Char} (t : List Char)
    (hna : d.isAlpha = false) (hns : isJsSpace d = false) :
    ∃ u, stripTrailingCode (d :: t) = d :: u := by
  rw [stripTrailingCode_eq_revStrip]
  have h2 : (d :: t).reverse = t.reverse ++ [d] := by simp
  rw [h2]
  rcases t.reverse with _ | ⟨s1, _ | ⟨s2, _ | ⟨s3, rest⟩⟩⟩
  · exact ⟨[], rfl⟩
  · exact ⟨[s1], rfl⟩
  · refine ⟨[s2, s1], ?_⟩
    simp [revStrip, hna]
  · show ∃ u, (revStrip (s1 :: s2 :: s3 :: (rest ++ [d]))).reverse = d :: u
    by_cases hcond : (s1.isAlpha && s2.isAlpha && s3.isAlpha) = true
    · refine ⟨(List.dropWhile isJsSpace rest).reverse, ?_⟩
      simp only [revStrip, hcond, if_true]
      rw [dropWhile_append_single hns]
      simp
    · refine ⟨(s3 :: (rest ++ [d])).reverse.tail ++ [s2, s1], ?_⟩
      simp only [revStrip, hcond, if_false, Bool.false_eq_true]
      simp

/-! ## Idempotence of end-trimming, and trimming after the code strip -/

theorem jsTrimEnd_idem (l : List Char) :
    jsTrimEnd (jsTrimEnd l) = jsTrimEnd l := by
  unfold jsTrimEnd
  rw [List.reverse_reverse, List.dropWhile_idempotent]

theorem jsTrimEnd_jsTrim (l : List Char) : jsTrimEnd (jsTrim l) = jsTrim l := by
  unfold jsTrim
  exact jsTrimEnd_idem (jsTrimStart l)

/-- The trailing-code strip preserves the absence of trailing
whitespace. -/
theorem jsTrimEnd_stripTrailingCode {L : List Char} (hL : jsTrimEnd L = L) :
    jsTrimEnd (stripTrailingCode L) = stripTrailingCode L := by
  rw [stripTrailingCode_eq_revStrip]
  rcases hrev : L.reverse with _ | ⟨c1, _ | ⟨c2, _ | ⟨c3, rest⟩⟩⟩
  · rfl
  · have hLr : (revStrip [c1]).reverse = L := by
      rw [show revStrip [c1] = [c1] from rfl, ← hrev, List.reverse_reverse]
    rw [hLr]
    exact hL
  · have hLr : (revStrip [c1, c2]).reverse = L := by
      rw [show revStrip [c1, c2] = [c1, c2] from rfl, ← hrev,
        List.reverse_reverse]
    rw [hLr]
    exact hL
  · by_cases hcond : (c1.isAlpha && c2.isAlpha && c3.isAlpha) = true
    · simp only [revStrip, hcond, if_true]
      unfold jsTrimEnd
      rw [List.reverse_reverse, List.dropWhile_idempotent]
    · simp only [revStrip, hcond, if_false, Bool.false_eq_true]
      rw [← hrev, List.reverse_reverse]
      exact hL

end BudgetNormalizer
namespace BudgetNormalizer

/-! ## Membership chains through the pipeline -/

theorem mem_of_jsTrimStart {x : Char} {l : List Char} (h : x ∈ jsTrimStart l) :
    x ∈ l := mem_of_dropWhile h

theorem mem_of_jsTrimEnd {x : Char} {l : List Char} (h : x ∈ jsTrimEnd l) :
    x ∈ l := by
  unfold jsTrimEnd at h
  rw [List.mem_reverse] at h
  exact List.mem_reverse.mp (mem_of_dropWhile h)

theorem mem_of_jsTrim {x : Char} {l : List Char} (h : x ∈ jsTrim l) : x ∈ l :=
  mem_of_jsTrimStart (mem_of_jsTrimEnd h)

theorem mem_of_stripLeadingSymbol {x : Char} {l : List Char}
    (h : x ∈ stripLeadingSymbol l) : x ∈ l := by
  cases l with
  | nil => exact h
  | cons c rest =>
    simp only [stripLeadingSymbol] at h
    by_cases hc : isCurrencySymbol c = true
    · rw [if_pos hc] at h
      exact List.mem_cons_of_mem c h
    · rwa [if_neg hc] at h

theorem mem_of_stripLeadingCode {x : Char} {l : List Char}
    (h : x ∈ stripLeadingCode l) : x ∈ l := by
  rcases l with _ | ⟨c1, _ | ⟨c2, _ | ⟨c3, rest⟩⟩⟩
  · exact h
  · exact h
  · exact h
  · by_cases hc : (c1.isAlpha && c2.isAlpha && c3.isAlpha) = true
    · have he : stripLeadingCode (c1 :: c2 :: c3 :: rest) =
          rest.dropWhile isJsSpace := by simp [stripLeadingCode, hc]
      rw [he] at h
      exact List.mem_cons_of_mem c1 (List.mem_cons_of_mem c2
        (List.mem_cons_of_mem c3 (mem_of_dropWhile h)))
    · have he : stripLeadingCode (c1 :: c2 :: c3 :: rest) =
          c1 :: c2 :: c3 :: rest := by simp [stripLeadingCode, hc]
      rwa [he] at h

theorem mem_of_stripTrailingCode {x : Char} {l : List Char}
    (h : x ∈ stripTrailingCode l) : x ∈ l := by
  rw [stripTrailingCode_eq_revStrip] at h
  rw [List.mem_reverse] at h
  rw [← List.mem_reverse]
  revert h
  rcases l.reverse with _ | ⟨c1, _ | ⟨c2, _ | ⟨c3, rest⟩⟩⟩ <;> intro h
  · exact h
  · exact h
  · exact h
  · by_cases hc : (c1.isAlpha && c2.isAlpha && c3.isAlpha) = true
    · have he : revStrip (c1 :: c2 :: c3 :: rest) =
          rest.dropWhile isJsSpace := by simp [revStrip, hc]
      rw [he] at h
      exact List.mem_cons_of_mem c1 (List.mem_cons_of_mem c2
        (List.mem_cons_of_mem c3 (mem_of_dropWhile h)))
    · have he : revStrip (c1 :: c2 :: c3 :: rest) =
          c1 :: c2 :: c3 :: rest := by simp [revStrip, hc]
      rwa [he] at h

theorem mem_of_cleanedTextOf {x : Char} {input : List Char}
    (h : x ∈ cleanedTextOf input) : x ∈ input :=
  mem_of_jsTrim (mem_of_stripLeadingSymbol (mem_of_stripLeadingCode
    (mem_of_stripTrailingCode (mem_of_jsTrim h))))

theorem jsSplit_cons_ne {sep y : Char} {ys : List Char} (h : ¬y = sep)
    {q : List Char} {qs : List (List Char)} (hq : jsSplit sep ys = q :: qs) :
    jsSplit sep (y :: ys) = (y :: q) :: qs := by
  simp [jsSplit, h, hq]

theorem jsSplit_head_subset {sep : Char} :
    ∀ {l p : List Char} {ps : List (List Char)},
      jsSplit sep l = p :: ps → ∀ x ∈ p, x ∈ l := by
  intro l
  induction l with
  | nil =>
    intro p ps hsplit x hx
    simp only [jsSplit] at hsplit
    cases hsplit
    exact absurd hx (List.not_mem_nil x)
  | cons y ys ih =>
    intro p ps hsplit x hx
    by_cases hy : y = sep
    · have he : jsSplit sep (y :: ys) = [] :: jsSplit sep ys := by
        simp [jsSplit, hy]
      rw [he] at hsplit
      cases hsplit
      exact absurd hx (List.not_mem_nil x)
    · rcases hq : jsSplit sep ys with _ | ⟨q, qs⟩
      · exact absurd hq (jsSplit_ne_nil sep ys)
      · rw [jsSplit_cons_ne hy hq] at hsplit
        cases hsplit
        rcases List.mem_cons.mp hx with rfl | hx'
        · exact List.mem_cons_self x ys
        · exact List.mem_cons_of_mem y (ih hq x hx')

theorem mem_of_intPartPreSign {x : Char} {c : List Char}
    (h : x ∈ intPartPreSign c) : x ∈ c := by
  unfold intPartPreSign at h
  have h1 : x ∈ removeThousands (sepRoles c).2
      (splitParts (sepRoles c).1 c).1 := (List.mem_filter.mp h).1
  have h2 : x ∈ (splitParts (sepRoles c).1 c).1 := by
    rcases hr2 : (sepRoles c).2 with _ | t
    · rw [hr2] at h1
      exact h1
    · rw [hr2] at h1
      exact (List.mem_filter.mp h1).1
  rcases hr1 : (sepRoles c).1 with _ | d
  · rw [hr1] at h2
    exact h2
  · rw [hr1] at h2
    by_cases hcont : c.contains d = true
    · have hmem : d ∈ c := contains_iff.mp hcont
      rcases hq : jsSplit d c with _ | ⟨q, qs⟩
      · exact absurd hq (jsSplit_ne_nil d c)
      · have he : (splitParts (some d) c).1 = q := by
          simp [splitParts, hmem, hq]
        rw [he] at h2
        exact jsSplit_head_subset hq x h2
    · have hnm : d ∉ c := fun hm => hcont (contains_iff.mpr hm)
      have he : (splitParts (some d) c).1 = c := by
        simp [splitParts, hnm]
      rw [he] at h2
      exact h2

/-! ## Separator roles under a separator-free prefix -/

theorem sepRoles_append (p c : List Char) (hp1 : '.' ∉ p) (hp2 : ',' ∉ p) :
    sepRoles (p ++ c) = sepRoles c := by
  by_cases hd : '.' ∈ c <;> by_cases hc : ',' ∈ c
  · have e1 : lastIndexOf '.' (p ++ c) = p.length + lastIndexOf '.' c :=
      lastIndexOf_append_of_mem p hd
    have e2 : lastIndexOf ',' (p ++ c) = p.length + lastIndexOf ',' c :=
      lastIndexOf_append_of_mem p hc
    have hne := lastIndexOf_dot_ne_comma hd hc
    rcases lt_trichotomy (lastIndexOf '.' c) (lastIndexOf ',' c) with h | h | h
    · rw [sepRoles_of_comma_later h,
        sepRoles_of_comma_later (by rw [e1, e2]; omega)]
    · exact absurd h hne
    · rw [sepRoles_of_dot_later h,
        sepRoles_of_dot_later (by rw [e1, e2]; omega)]
  · have hd' : '.' ∈ p ++ c := List.mem_append_right p hd
    have hc' : ',' ∉ p ++ c := by
      rw [List.mem_append]
      rintro (h | h)
      · exact hp2 h
      · exact hc h
    rw [sepRoles_of_dot_only hd' hc', sepRoles_of_dot_only hd hc]
  · have hc' : ',' ∈ p ++ c := List.mem_append_right p hc
    have hd' : '.' ∉ p ++ c := by
      rw [List.mem_append]
      rintro (h | h)
      · exact hp1 h
      · exact hd h
    rw [sepRoles_of_comma_only hc' hd', sepRoles_of_comma_only hc hd]
  · have hd' : '.' ∉ p ++ c := by
      rw [List.mem_append]
      rintro (h | h)
      · exact hp1 h
      · exact hd h
    have hc' : ',' ∉ p ++ c := by
      rw [List.mem_append]
      rintro (h | h)
      · exact hp2 h
      · exact hc h
    rw [sepRoles_of_none hd' hc', sepRoles_of_none hd hc]

theorem exists_first_split {d : Char} {c : List Char} (h : d ∈ c) :
    ∃ a b, c = a ++ d :: b ∧ d ∉ a := by
  induction c with
  | nil => exact absurd h (List.not_mem_nil d)
  | cons x xs ih =>
    by_cases hx : x = d
    · exact ⟨[], xs, by rw [hx]; rfl, List.not_mem_nil d⟩
    · have hxs : d ∈ xs := by
        rcases List.mem_cons.mp h with h' | h'
        · exact absurd h'.symm hx
        · exact h'
      obtain ⟨a, b, hab, hna⟩ := ih hxs
      refine ⟨x :: a, b, by rw [hab]; rfl, ?_⟩
      rw [List.mem_cons]
      rintro (h' | h')
      · exact hx h'.symm
      · exact hna h'

end BudgetNormalizer
namespace BudgetNormalizer

/-! ## Effect of a `-` prefix on the split parts -/

theorem filter_eq_nil_of_all {p : Char → Bool} {a : List Char}
    (h : ∀ x ∈ a, p x = false) : List.filter p a = [] := by
  induction a with
  | nil => rfl
  | cons y ys ih =>
    rw [List.filter_cons, if_neg (by simp [h y (List.mem_cons_self y ys)])]
    exact ih fun x hx => h x (List.mem_cons_of_mem y hx)

theorem removeSpaces_dash_front {lw : List Char} (z : List Char)
    (hlw : ∀ x ∈ lw, isJsSpace x = true) :
    removeSpaces (('-' :: lw) ++ z) = '-' :: removeSpaces z := by
  unfold removeSpaces
  rw [List.filter_append, List.filter_cons,
    if_pos (by decide : (!isJsSpace '-') = true),
    filter_eq_nil_of_all (by intro x hx; simp [hlw x hx])]
  rfl

/-- Prefixing the cleaned text with `-` followed by whitespace prepends
`-` to the pre-sign integer part and leaves the decimal part unchanged. -/
theorem intPart_decPart_dash_front (lw c : List Char)
    (hlw : ∀ x ∈ lw, isJsSpace x = true) :
    intPartPreSign (('-' :: lw) ++ c) = '-' :: intPartPreSign c ∧
    decPartOf (('-' :: lw) ++ c) = decPartOf c := by
  have hp_dot : '.' ∉ '-' :: lw := by
    rw [List.mem_cons]
    rintro (h | h)
    · exact absurd h (by decide)
    · exact absurd (hlw '.' h) (by decide)
  have hp_comma : ',' ∉ '-' :: lw := by
    rw [List.mem_cons]
    rintro (h | h)
    · exact absurd h (by decide)
    · exact absurd (hlw ',' h) (by decide)
  have hroles : sepRoles (('-' :: lw) ++ c) = sepRoles c :=
    sepRoles_append ('-' :: lw) c hp_dot hp_comma
  -- common case: a decimal and a thousands separator are assigned
  have main : ∀ dd tt : Char, sepRoles c = (some dd, some tt) → dd ∈ c →
      dd ≠ '-' → isJsSpace dd = false → tt ≠ '-' → isJsSpace tt = false →
      intPartPreSign (('-' :: lw) ++ c) = '-' :: intPartPreSign c ∧
      decPartOf (('-' :: lw) ++ c) = decPartOf c := by
    intro dd tt hr hmem hdd1 hdd2 htt1 htt2
    obtain ⟨a, b, hab, hna⟩ := exists_first_split hmem
    have hnap : dd ∉ ('-' :: lw) ++ a := by
      rw [List.mem_append, List.mem_cons]
      rintro ((h | h) | h)
      · exact hdd1 h
      · exact absurd (hlw dd h) (by rw [hdd2]; simp)
      · exact hna h
    have hcp : ('-' :: lw) ++ c = (('-' :: lw) ++ a) ++ dd :: b := by
      rw [hab, List.append_assoc]
    have hs1 : splitParts (some dd) c = (a, b.filter (· ≠ dd)) := by
      rw [hab]
      exact splitParts_some b hna
    have hs2 : splitParts (some dd) (('-' :: lw) ++ c) =
        (('-' :: lw) ++ a, b.filter (· ≠ dd)) := by
      rw [hcp]
      exact splitParts_some b hnap
    have htfil : ∀ z : List Char,
        List.filter (fun x => decide (x ≠ tt)) (('-' :: lw) ++ z) =
          ('-' :: lw) ++ List.filter (fun x => decide (x ≠ tt)) z := by
      intro z
      rw [List.filter_append,
        filter_eq_self_of_all (by
          intro x hx
          rw [List.mem_cons] at hx
          rcases hx with rfl | hx
          · simp [Ne.symm htt1]
          · have hxs := hlw x hx
            have : x ≠ tt := by
              intro he
              rw [he] at hxs
              rw [hxs] at htt2
              cases htt2
            simp [this])]
    have hlhs : intPartPreSign (('-' :: lw) ++ c) =
        removeSpaces (('-' :: lw) ++
          List.filter (fun x => decide (x ≠ tt)) a) := by
      unfold intPartPreSign
      rw [hroles, hr]
      show removeSpaces (removeThousands (some tt)
        (splitParts (some dd) (('-' :: lw) ++ c)).1) = _
      rw [hs2]
      show removeSpaces (List.filter (fun x => decide (x ≠ tt))
        (('-' :: lw) ++ a)) = _
      rw [htfil a]
    have hrhs : intPartPreSign c =
        removeSpaces (List.filter (fun x => decide (x ≠ tt)) a) := by
      unfold intPartPreSign
      rw [hr]
      show removeSpaces (removeThousands (some tt)
        (splitParts (some dd) c).1) = _
      rw [hs1]
      rfl
    constructor
    · rw [hlhs, hrhs, removeSpaces_dash_front _ hlw]
    · unfold decPartOf
      rw [hroles, hr]
      show removeSpaces (splitParts (some dd) (('-' :: lw) ++ c)).2 =
        removeSpaces (splitParts (some dd) c).2
      rw [hs1, hs2]
  by_cases hdc : '.' ∈ c <;> by_cases hcc : ',' ∈ c
  · have hne := lastIndexOf_dot_ne_comma hdc hcc
    rcases lt_trichotomy (lastIndexOf '.' c) (lastIndexOf ',' c) with h | h | h
    · exact main ',' '.' (sepRoles_of_comma_later h) hcc (by decide) (by decide)
        (by decide) (by decide)
    · exact absurd h hne
    · exact main '.' ',' (sepRoles_of_dot_later h) hdc (by decide) (by decide)
        (by decide) (by decide)
  · exact main '.' ',' (sepRoles_of_dot_only hdc hcc) hdc (by decide)
      (by decide) (by decide) (by decide)
  · exact main ',' '.' (sepRoles_of_comma_only hcc hdc) hcc (by decide)
      (by decide) (by decide) (by decide)
  · have hr : sepRoles c = (none, none) := sepRoles_of_none hdc hcc
    constructor
    · unfold intPartPreSign
      rw [hroles, hr]
      show removeSpaces (('-' :: lw) ++ c) = '-' :: removeSpaces c
      exact removeSpaces_dash_front c hlw
    · unfold decPartOf
      rw [hroles, hr]
      rfl

end BudgetNormalizer
namespace BudgetNormalizer

/-- **C7** (amended): for a string `s` that contains no sign marker
(`-`, `(`, `)`), whose trimmed form begins with a digit — the
counterexample shows the claim fails when it begins with a currency
symbol, since the leading `-` then blocks the symbol strip — and that
parses successfully, prepending `-` negates the result. -/
theorem c7_dash_prepend_negates (s : List Char) (n : Int)
    (hm1 : '-' ∉ s) (hm2 : '(' ∉ s) (hm3 : ')' ∉ s)
    (hd : ∃ d t, jsTrim s = d :: t ∧ d.isDigit = true)
    (hok : parseMoney s = .ok n) :
    parseMoney ('-' :: s) = .ok (-n) := by
  obtain ⟨d, t, htrim, hdig⟩ := hd
  have hne : jsTrim s ≠ [] := by rw [htrim]; simp
  have hdna : d.isAlpha = false := digit_not_alpha hdig
  have hdns : isJsSpace d = false := digit_not_space hdig
  have hdsym : isCurrencySymbol d = false := digit_not_symbol hdig
  obtain ⟨u, hu⟩ := stripTrailingCode_head t hdna hdns
  have hend : jsTrimEnd (d :: u) = d :: u := by
    have h0 := jsTrimEnd_stripTrailingCode (jsTrimEnd_jsTrim s)
    rw [htrim, hu] at h0
    exact h0
  have hstart : ∀ w : List Char, jsTrimStart (d :: w) = d :: w := by
    intro w
    simp [jsTrimStart, List.dropWhile_cons, hdns]
  have hX : cleanedTextOf s = d :: u := by
    unfold cleanedTextOf
    rw [htrim, stripLeadingSymbol_of_head t hdsym,
      stripLeadingCode_of_head t hdna, hu]
    show jsTrimEnd (jsTrimStart (d :: u)) = d :: u
    rw [hstart u]
    exact hend
  have hlw : ∀ x ∈ s.takeWhile isJsSpace, isJsSpace x = true :=
    fun x hx => List.mem_takeWhile_imp hx
  have hjs : jsTrim (d :: u) = d :: u := by
    show jsTrimEnd (jsTrimStart (d :: u)) = d :: u
    rw [hstart u]
    exact hend
  have hC' : cleanedTextOf ('-' :: s) =
      ('-' :: s.takeWhile isJsSpace) ++ cleanedTextOf s := by
    unfold cleanedTextOf
    rw [jsTrim_dash_cons hne,
      stripLeadingSymbol_of_head _ (by decide),
      stripLeadingCode_of_head _ (by decide), htrim]
    rw [stripLeadingSymbol_of_head t hdsym, stripLeadingCode_of_head t hdna]
    rw [show ('-' :: (s.takeWhile isJsSpace ++ d :: t)) =
        ('-' :: s.takeWhile isJsSpace) ++ d :: t from rfl,
      stripTrailingCode_append_cons ('-' :: s.takeWhile isJsSpace) hdna hdns,
      hu, hjs]
    show jsTrimEnd (jsTrimStart
      (('-' :: s.takeWhile isJsSpace) ++ d :: u)) = _
    rw [show jsTrimStart (('-' :: s.takeWhile isJsSpace) ++ d :: u) =
        ('-' :: s.takeWhile isJsSpace) ++ d :: u from by
      simp [jsTrimStart, List.cons_append, List.dropWhile_cons,
        (by decide : isJsSpace '-' = false)]]
    rw [jsTrimEnd_append ⟨d, by simp, hdns⟩, hend]
  obtain ⟨hipp, hdpp⟩ :=
    intPart_decPart_dash_front (s.takeWhile isJsSpace) (cleanedTextOf s) hlw
  have hi : allDigits (intPartOf (cleanedTextOf s)) = true := by
    by_contra hni
    rw [Bool.not_eq_true] at hni
    rw [parseMoney_invalid_int hne hni] at hok
    exact absurd hok (by simp)
  have hdp2 : allDigits (decPartOf (cleanedTextOf s)) = true := by
    by_contra hni
    rw [Bool.not_eq_true] at hni
    rw [parseMoney_invalid_dec hne hni] at hok
    exact absurd hok (by simp)
  have hipOf : intPartOf (cleanedTextOf ('-' :: s)) =
      intPartOf (cleanedTextOf s) := by
    unfold intPartOf
    rw [hC', hipp]
    unfold stripSignChars
    rw [List.filter_cons, if_neg (by decide)]
  have hdpOf : decPartOf (cleanedTextOf ('-' :: s)) =
      decPartOf (cleanedTextOf s) := by
    rw [hC', hdpp]
  have hne' : jsTrim ('-' :: s) ≠ [] := by
    rw [jsTrim_dash_cons hne]
    simp
  have hnegOrig : isNegativeOf (intPartPreSign (cleanedTextOf s)) = false := by
    unfold isNegativeOf
    have hnd : '-' ∉ intPartPreSign (cleanedTextOf s) :=
      fun hm => hm1 (mem_of_cleanedTextOf (mem_of_intPartPreSign hm))
    have hnp : '(' ∉ intPartPreSign (cleanedTextOf s) :=
      fun hm => hm2 (mem_of_cleanedTextOf (mem_of_intPartPreSign hm))
    rw [show (intPartPreSign (cleanedTextOf s)).contains '-' = false from by
      by_contra hc
      rw [Bool.not_eq_false, contains_iff] at hc
      exact hnd hc]
    rw [show (intPartPreSign (cleanedTextOf s)).contains '(' = false from by
      by_contra hc
      rw [Bool.not_eq_false, contains_iff] at hc
      exact hnp hc]
    rfl
  have hnegNew : isNegativeOf (intPartPreSign (cleanedTextOf ('-' :: s))) =
      true := by
    rw [hC', hipp]
    unfold isNegativeOf
    simp [List.contains_cons]
  rw [parseMoney_formula hne hi hdp2] at hok
  have hval := Except.ok.inj hok
  simp only [hnegOrig] at hval
  rw [parseMoney_formula hne' (by rw [hipOf]; exact hi)
    (by rw [hdpOf]; exact hdp2)]
  simp only [hipOf, hdpOf, hnegNew]
  simp only [Bool.false_eq_true, if_false] at hval
  rw [hval]
  simp

/-- Witness for `c7_dash_prepend_negates`: `"  5"` (no sign marker, trims
to the digit `5`, parses to `500`), and `"-  5"` parses to `-500`. -/
theorem c7_witness : parseMoney ('-' :: "  5".data) = .ok (-500) :=
  c7_dash_prepend_negates "  5".data 500 (by decide) (by decide) (by decide)
    ⟨'5', [], by decide, by decide⟩ (by rfl)

end BudgetNormalizer